import Mathlib

/-!
# Verification of the bulk CSV/spreadsheet import pipeline

Shallow embedding of `src/ankh-client-app/src/app/api/import-csv/route.ts`
(the reconciliation import pipeline) and proofs of the specification claims
about it.

Modelling conventions:
* JavaScript strings are Lean `String`s; `charCodeAt` is `Char.toNat`
  (UTF-16 code units and code points agree on the BMP inputs this pipeline
  handles, and all concrete inputs here are ASCII).
* JavaScript `Date` time values are `Int` milliseconds since the Unix epoch
  (`Date.getTime()` — an integer, since the `Date` constructor clips its
  argument to an integral time value).  The host `Number(string)` parser is
  modelled as integer-valued: the spreadsheet serial dates this pipeline
  handles are whole-day counts, and fractional serial values are outside
  the model.
* The host runtime's `Number(string)` and `new Date(string)` parsers are an
  environment `JsEnv` of abstract functions (with `none` standing for `NaN`
  / an invalid date); theorems quantify over the environment, and concrete
  witnesses instantiate it with executable parsers.
* The relational store (Prisma/PostgreSQL) is a record of lists of rows,
  with server-assigned `cuid` identifiers modelled by a counter.  Columns
  the route never reads or writes and that the database manages on its own
  (`createdAt`/`updatedAt` audit timestamps) are outside the model; the
  customer columns `phone`, `address`, `deletedAt` are kept because the
  frame claims are about them.
* The file upload / decode step is out of scope of the claims: the pipeline
  is modelled from the point where `data` (the decoded list of rows, each a
  list of raw key/value string pairs in object insertion order) exists.
-/

/-! ## JS string helpers used by the route -/

/-- The whitespace class matched by the route's `\s` regexes (ASCII part;
the non-breaking space ` ` is replaced separately by the source). -/
def isJsSpace (c : Char) : Bool :=
  c = ' ' || c = '\t' || c = '\n' || c = '\r' || c = '\x0b' || c = '\x0c' ||
  c = '\u00A0'

/-- `replace(/\s+/g, ' ')`: collapse every whitespace run to one space. -/
def collapseWsGo : Bool → List Char → List Char
  | _, [] => []
  | inWs, c :: cs =>
    if isJsSpace c then
      if inWs then collapseWsGo true cs else ' ' :: collapseWsGo true cs
    else
      c :: collapseWsGo false cs

def collapseWs (s : String) : String :=
  String.mk (collapseWsGo false s.data)

/-- `replace(/\s+/g, '')`: strip all whitespace characters. -/
def stripSpaces (s : String) : String :=
  String.mk (s.data.filter (fun c => ¬ isJsSpace c))

/-- The non-breaking space U+00A0, as a one-character string. -/
def nbsp : String := String.singleton '\u00A0'

/-- `replace(/\u00a0/g, ' ')`: turn each non-breaking space into a space. -/
def replaceNbsp (s : String) : String :=
  String.mk (s.data.map (fun c => if c = '\u00A0' then ' ' else c))

def jsTrimLeft : List Char → List Char
  | [] => []
  | c :: cs => if isJsSpace c then jsTrimLeft cs else c :: cs

/-- JS `String.prototype.trim` (drop leading and trailing whitespace),
implemented structurally so that proofs can evaluate it. -/
def jsTrim (s : String) : String :=
  String.mk ((jsTrimLeft (jsTrimLeft s.data).reverse).reverse)

/-- JS `String.prototype.toLowerCase` on the ASCII range. -/
def toLowerStr (s : String) : String :=
  String.mk (s.data.map Char.toLower)

/-- `normalizeHeader` from the route: normalize non-breaking spaces, trim,
lower-case, collapse internal whitespace. -/
def normalizeHeader (header : String) : String :=
  collapseWs (toLowerStr (jsTrim (replaceNbsp header)))

/-- `REQUIRED_HEADERS` from the route (canonical, case-insensitive). -/
def REQUIRED_HEADERS : List String :=
  [ "customer id"
  , "customer name"
  , "initial symptom"
  , "lesson id"
  , "lesson date"
  , "instructor name"
  , "lesson type"
  , "customer symptoms"
  , "lesson content"
  , "course completion status" ]

/-- `HEADER_ALIASES` from the route (lowercase keys). -/
def HEADER_ALIASES : List (String × String) :=
  [ ("customer_id", "customer id")
  , ("customer name", "customer name")
  , ("customer_name", "customer name")
  , ("client_name", "customer name")
  , ("initial symptom", "initial symptom")
  , ("client_condition_before_after", "course completion status")
  , ("customer improvements", "course completion status")
  , ("customer symptoms", "customer symptoms")
  , ("client_notes", "customer symptoms")
  , ("lesson id", "lesson id")
  , ("lesson_id", "lesson id")
  , ("lesson date", "lesson date")
  , ("lesson_date", "lesson date")
  , ("timestamp", "lesson date")
  , ("instructor name", "instructor name")
  , ("instructor_name", "instructor name")
  , ("lesson type", "lesson type")
  , ("lesson_type", "lesson type")
  , ("care_program", "lesson type")
  , ("location", "location name")
  , ("location name", "location name")
  , ("location_name", "location name")
  , ("lesson content", "lesson content")
  , ("lesson_content", "lesson content")
  , ("lesson details", "lesson content")
  , ("lesson_details", "lesson content")
  , ("owner_feedback", "lesson content")
  , ("course completion status", "course completion status")
  , ("course_completion_status", "course completion status")
  , ("customer feedback", "course completion status")
  , ("customer feedback/specifics", "course completion status")
  , ("customer feedback specifics", "course completion status") ]

/-- `canonicalHeader` from the route: alias lookup after normalization. -/
def canonicalHeader (header : String) : String :=
  let normalized := normalizeHeader header
  (HEADER_ALIASES.lookup normalized).getD normalized

/-- `chunkArray` from the route: split a list into runs of `size`,
implemented with structural fuel recursion (the fuel is never exhausted
for a positive `size`, see `chunkArray_cons`).  The route only ever calls
it with `size = 50`; the `size = 0` case (on which the JS original would
not terminate) is given a harmless value. -/
def chunkArrayGo (size : Nat) : Nat → List α → List (List α)
  | _, [] => []
  | 0, x :: xs => [x :: xs]
  | fuel + 1, x :: xs =>
    ((x :: xs).take size) :: chunkArrayGo size fuel ((x :: xs).drop size)

def chunkArray (items : List α) (size : Nat) : List (List α) :=
  match size with
  | 0 =>
    match items with
    | [] => []
    | x :: xs => [x :: xs]
  | sz + 1 => chunkArrayGo (sz + 1) items.length items

/-- `hashString` step: `hash = (hash * 31 + value.charCodeAt(i)) >>> 0`. -/
def hashStep (hash : Nat) (c : Char) : Nat :=
  (hash * 31 + c.toNat) % 2 ^ 32

/-- Base-36 digit characters used by JS `Number.prototype.toString(36)`. -/
def digit36 (d : Nat) : Char :=
  "0123456789abcdefghijklmnopqrstuvwxyz".data.getD d '0'

def toBase36Go : Nat → Nat → List Char → List Char
  | 0, _, acc => acc
  | fuel + 1, n, acc =>
    if n = 0 then acc
    else toBase36Go fuel (n / 36) (digit36 (n % 36) :: acc)

/-- JS `n.toString(36)` for a nonnegative integer (`n` itself is always
enough fuel, since the argument shrinks by a factor of 36 each step). -/
def toBase36 (n : Nat) : String :=
  if n = 0 then "0" else String.mk (toBase36Go n n [])

/-- `hashString` from the route: a 32-bit multiplicative hash rendered in
base 36. -/
def hashString (value : String) : String :=
  toBase36 (value.data.foldl hashStep 0)

/-- `buildInstructorEmail` from the route. -/
def buildInstructorEmail (name : String) : String :=
  stripSpaces name ++ "@imported.local"

/-- `buildInstructorUsername` from the route:
`{compactedName}_{stableHashOfName}` with an `"instructor"` fallback for an
all-whitespace name. -/
def buildInstructorUsername (name : String) : String :=
  let compact := if stripSpaces name = "" then "instructor" else stripSpaces name
  compact ++ "_" ++ hashString name

/-! ## Calendar arithmetic (for `Date.UTC` and the witness environment) -/

/-- Days from the Unix epoch (1970-01-01) to the Gregorian date `y-m-d`
(proleptic, `m` in 1..12), by the standard civil-days algorithm. -/
def daysFromCivil (y m d : Int) : Int :=
  let ys := y - (if m ≤ 2 then 1 else 0)
  let era := Int.fdiv ys 400
  let yoe := ys - era * 400
  let mp := Int.emod (m + 9) 12
  let doy := (153 * mp + 2) / 5 + d - 1
  let doe := yoe * 365 + yoe / 4 - yoe / 100 + doy
  era * 146097 + doe - 719468

/-- `Date.UTC(y, m-1, d)` as milliseconds since the Unix epoch. -/
def dateUTCms (y m d : Int) : Int :=
  daysFromCivil y m d * 86400000

/-- `new Date(Date.UTC(1899, 11, 30)).getTime()`, the spreadsheet epoch
used by the route. -/
def excelEpochMs : Int := dateUTCms 1899 12 30

theorem excelEpochMs_value : excelEpochMs = -2209161600000 := by decide

/-! ## The host-runtime parsing environment -/

/-- The two host-runtime parsers the route calls: `Number(string)` (with
`none` for `NaN`) and `new Date(string).getTime()` (with `none` for an
invalid date).  `toNumber_empty` records the JS fact `Number('') === 0`. -/
structure JsEnv where
  toNumber : String → Option Int
  parseDate : String → Option Int
  toNumber_empty : toNumber "" = some 0

/-- `parseLessonDate` from the route: an empty trimmed value is `null`; a
positive numeric value is an Excel serial day count anchored at
1899-12-30 UTC; otherwise fall back to calendar-string parsing. -/
def parseLessonDate (env : JsEnv) (value : String) : Option Int :=
  let trimmed := jsTrim value
  if trimmed = "" then none
  else
    match env.toNumber trimmed with
    | some numeric =>
      if 0 < numeric then some (excelEpochMs + numeric * (24 * 60 * 60 * 1000))
      else env.parseDate trimmed
    | none => env.parseDate trimmed

/-! ## Decoded rows and the row validator -/

/-- A decoded data row as handed to the route's row loop: the entries of
the row object, in insertion order (raw header label, raw cell value). -/
abbrev RawRow := List (String × String)

/-- Reading `row[key]` after the route's canonicalizing rebuild
`row[canonicalHeader(k)] = (v ?? '').toString().trim()`: the value of the
last entry whose canonicalized label is `key` (later entries overwrite
earlier ones in the JS object), trimmed; `""` when absent (the route only
uses the value through `!x` / `x || y`, which identify `undefined` and
`""`). -/
def rowGet (raw : RawRow) (key : String) : String :=
  match (raw.filterMap fun kv =>
      if canonicalHeader kv.1 = key then some kv.2 else none).getLast? with
  | some v => jsTrim v
  | none => ""

/-- One entry of the route's `validRows` array. -/
structure ValidRow where
  customerId : String
  customerName : String
  lessonId : String
  lessonDate : String
  parsedLessonDate : Int
  instructorName : String
  lessonType : String
  locationName : String
  customerSymptoms : String
  customerImprovements : String
  lessonContent : String
  courseCompletionStatus : String
deriving DecidableEq, Inhabited

/-- The route's per-row processing (lines 205-254): extract the canonical
cells, reject on a missing mandatory cell, then on an unparseable date;
otherwise produce the `validRows` entry. -/
def parseRow (env : JsEnv) (raw : RawRow) : Except String ValidRow :=
  let customerId := rowGet raw "customer id"
  let customerName := rowGet raw "customer name"
  let lessonId := rowGet raw "lesson id"
  let lessonDate := rowGet raw "lesson date"
  let instructorName := rowGet raw "instructor name"
  let lessonType := rowGet raw "lesson type"
  let locationName := rowGet raw "location name"
  let customerSymptoms := rowGet raw "customer symptoms"
  let customerImprovements := rowGet raw "customer improvements"
  let lessonContent := rowGet raw "lesson content"
  let courseCompletionStatus := rowGet raw "course completion status"
  if customerId = "" ∨ customerName = "" ∨ lessonId = "" ∨ lessonDate = "" ∨
      instructorName = "" then
    .error "Missing required fields"
  else
    match parseLessonDate env lessonDate with
    | none => .error "Invalid lesson date format"
    | some parsedDate =>
      .ok { customerId, customerName, lessonId, lessonDate
          , parsedLessonDate := parsedDate, instructorName, lessonType
          , locationName, customerSymptoms, customerImprovements
          , lessonContent, courseCompletionStatus }

/-- The row-loop accumulator (`validRows`, `rowErrors`, `errorCount`). -/
structure ValidationState where
  validRows : List ValidRow
  rowErrors : List String
  errorCount : Nat
deriving DecidableEq

/-- The error string pushed for a rejected row. -/
def rowErrorMsg (rowNumber : Nat) (reason : String) : String :=
  "Row " ++ toString rowNumber ++ ": " ++ reason

/-- One iteration of the row loop, for the 0-based index `i`
(`rowNumber = i + 2`: 1-indexed with the header as row 1). -/
def validateStep (env : JsEnv) (st : ValidationState) (p : Nat × RawRow) :
    ValidationState :=
  match parseRow env p.2 with
  | .error reason =>
    { st with rowErrors := st.rowErrors ++ [rowErrorMsg (p.1 + 2) reason]
            , errorCount := st.errorCount + 1 }
  | .ok r => { st with validRows := st.validRows ++ [r] }

/-- The whole row loop (lines 205-254). -/
def validateLoop (env : JsEnv) (data : List RawRow) : ValidationState :=
  data.enum.foldl (validateStep env) ⟨[], [], 0⟩

/-! ## Identity resolution (the in-memory entity maps, lines 256-300) -/

structure CustomerEntry where
  id : String
  name : String
deriving DecidableEq

structure InstructorEntry where
  email : String
  name : String
deriving DecidableEq

structure LessonEntry where
  id : String
  instructorEmail : String
  locationName : String
  lessonType : String
  lessonContent : String
  lessonDate : Int
deriving DecidableEq

/-- JS `Map.prototype.set`: replace in place when the key exists, append
otherwise (insertion order is preserved). -/
def mapSet (m : List (String × α)) (k : String) (v : α) : List (String × α) :=
  if m.any (·.1 = k) then m.map (fun p => if p.1 = k then (k, v) else p)
  else m ++ [(k, v)]

/-- JS `Set.prototype.add` (insertion order preserved). -/
def setAdd (s : List String) (x : String) : List String :=
  if s.contains x then s else s ++ [x]

/-- `row.locationName?.trim() || 'Default Location'`. -/
def normalizedLocationOf (row : ValidRow) : String :=
  if jsTrim row.locationName = "" then "Default Location"
  else jsTrim row.locationName

/-- The lesson-map entry created for the first row of an event. -/
def initLessonEntry (row : ValidRow) (instructorEmail normalizedLocation : String) :
    LessonEntry :=
  { id := row.lessonId
  , instructorEmail
  , locationName := normalizedLocation
  , lessonType := if row.lessonType = "" then "Group" else row.lessonType
  , lessonContent := row.lessonContent
  , lessonDate := row.parsedLessonDate }

/-- The lesson-map reconciliation for a later row of the same event:
earliest date wins, first non-empty content wins. -/
def updateLessonEntry (e : LessonEntry) (row : ValidRow) : LessonEntry :=
  let e := if row.parsedLessonDate < e.lessonDate
    then { e with lessonDate := row.parsedLessonDate } else e
  if e.lessonContent = "" ∧ row.lessonContent ≠ "" then
    { e with lessonContent := row.lessonContent } else e

structure EntityMaps where
  customers : List (String × CustomerEntry)
  instructors : List (String × InstructorEntry)
  locations : List String
  lessons : List (String × LessonEntry)
deriving DecidableEq

/-- The body of `validRows.forEach(row => ...)` (lines 271-300). -/
def resolveStep (m : EntityMaps) (row : ValidRow) : EntityMaps :=
  let m := { m with
    customers := mapSet m.customers row.customerId ⟨row.customerId, row.customerName⟩ }
  let instructorEmail := buildInstructorEmail row.instructorName
  let m := { m with
    instructors := mapSet m.instructors instructorEmail
      ⟨instructorEmail, row.instructorName⟩ }
  let normalizedLocation := normalizedLocationOf row
  let m := { m with locations := setAdd m.locations normalizedLocation }
  if m.lessons.any (·.1 = row.lessonId) then
    { m with lessons := m.lessons.map fun p =>
        if p.1 = row.lessonId then (p.1, updateLessonEntry p.2 row) else p }
  else
    { m with lessons :=
        m.lessons ++ [(row.lessonId, initLessonEntry row instructorEmail normalizedLocation)] }

def buildMaps (rows : List ValidRow) : EntityMaps :=
  rows.foldl resolveStep ⟨[], [], [], []⟩

/-! ## The relational store and the upsert operations -/

structure LocationRec where
  id : Nat
  name : String
deriving DecidableEq

structure UserRec where
  id : Nat
  username : String
  password : String
  role : String
  firstName : String
  lastName : String
  email : String
deriving DecidableEq

structure CustomerRec where
  id : String
  firstName : String
  lastName : String
  email : String
  phone : Option String
  address : Option String
  deletedAt : Option Int
deriving DecidableEq

structure LessonRec where
  id : String
  lessonType : String
  instructorId : Nat
  locationId : Nat
  lessonContent : Option String
  createdAt : Int
deriving DecidableEq, Inhabited

structure PartRec where
  id : Nat
  customerId : String
  lessonId : String
  customerSymptoms : Option String
  customerImprovements : Option String
  status : String
deriving DecidableEq

/-- The store: one list of rows per table, plus the counter standing in for
the server-side `cuid()` id generator. -/
structure Store where
  locations : List LocationRec
  users : List UserRec
  customers : List CustomerRec
  lessons : List LessonRec
  participants : List PartRec
  nextId : Nat
deriving DecidableEq

/-- `const [firstName, ...rest] = name.split(' ')`, with the route's
`firstName || ''` and `rest.join(' ') || ''` defaults. -/
def splitOnCharGo (sep : Char) : List Char → List Char → List String
  | [], acc => [String.mk acc.reverse]
  | c :: cs, acc =>
    if c = sep then String.mk acc.reverse :: splitOnCharGo sep cs []
    else splitOnCharGo sep cs (c :: acc)

/-- JS `String.prototype.split` on a one-character separator, implemented
structurally so that proofs can evaluate it. -/
def splitOnChar (sep : Char) (s : String) : List String :=
  splitOnCharGo sep s.data []

/-- `Array.prototype.join` with a separator. -/
def joinWith (sep : String) : List String → String
  | [] => ""
  | [x] => x
  | x :: xs => x ++ sep ++ joinWith sep xs

def splitFirstRest (name : String) : String × String :=
  match splitOnChar ' ' name with
  | [] => ("", "")
  | f :: rest => (f, joinWith " " rest)

/-- `x || null` on a string field. -/
def strOrNull (s : String) : Option String := if s = "" then none else some s

/-- `prisma.location.upsert({where: {name}, update: {}, create: {name}})`. -/
def upsertLocation (s : Store) (name : String) : Store :=
  if s.locations.any (·.name = name) then s
  else
    { s with
        locations := s.locations ++ [⟨s.nextId, name⟩],
        nextId := s.nextId + 1 }

/-- `prisma.user.upsert` keyed by email (lines 323-340). -/
def upsertInstructor (s : Store) (instructor : InstructorEntry) : Store :=
  let fr := splitFirstRest instructor.name
  if s.users.any (·.email = instructor.email) then
    { s with users := s.users.map fun u =>
        if u.email = instructor.email then
          { u with firstName := fr.1, lastName := fr.2 } else u }
  else
    { s with
        users := s.users ++
          [{ id := s.nextId
           , username := buildInstructorUsername instructor.name
           , password := "imported_password_hash"
           , role := "INSTRUCTOR"
           , firstName := fr.1
           , lastName := fr.2
           , email := instructor.email }],
        nextId := s.nextId + 1 }

/-- `prisma.customer.upsert` keyed by the client-supplied id
(lines 353-368); note the update branch also rewrites `email`. -/
def upsertCustomer (s : Store) (customer : CustomerEntry) : Store :=
  let fr := splitFirstRest customer.name
  let email := customer.id ++ "@imported.local"
  if s.customers.any (·.id = customer.id) then
    { s with customers := s.customers.map fun c =>
        if c.id = customer.id then
          { c with firstName := fr.1, lastName := fr.2, email := email } else c }
  else
    { s with customers := s.customers ++
        [{ id := customer.id
         , firstName := fr.1
         , lastName := fr.2
         , email := email
         , phone := none
         , address := none
         , deletedAt := none }] }

/-- `prisma.lesson.upsert` keyed by id (lines 384-401); the payload fields
are identical in the `update` and `create` branches. -/
def applyLessonUpsert (s : Store) (l : LessonRec) : Store :=
  if s.lessons.any (·.id = l.id) then
    { s with lessons := s.lessons.map fun r =>
        if r.id = l.id then
          { r with lessonType := l.lessonType, instructorId := l.instructorId
                 , locationId := l.locationId, lessonContent := l.lessonContent
                 , createdAt := l.createdAt } else r }
  else { s with lessons := s.lessons ++ [l] }

/-- `row.courseCompletionStatus || row.customerImprovements || null`. -/
def noteOf (row : ValidRow) : Option String :=
  if row.courseCompletionStatus ≠ "" then some row.courseCompletionStatus
  else if row.customerImprovements ≠ "" then some row.customerImprovements
  else none

/-- `prisma.lessonParticipant.upsert` keyed by `(customerId, lessonId)`
(lines 409-428). -/
def upsertParticipant (s : Store) (row : ValidRow) : Store :=
  if s.participants.any (fun p =>
      p.customerId = row.customerId ∧ p.lessonId = row.lessonId) then
    { s with participants := s.participants.map fun p =>
        if p.customerId = row.customerId ∧ p.lessonId = row.lessonId then
          { p with customerSymptoms := strOrNull row.customerSymptoms
                 , customerImprovements := noteOf row
                 , status := "attended" } else p }
  else
    { s with
        participants := s.participants ++
          [{ id := s.nextId
           , customerId := row.customerId
           , lessonId := row.lessonId
           , customerSymptoms := strOrNull row.customerSymptoms
           , customerImprovements := noteOf row
           , status := "attended" }],
        nextId := s.nextId + 1 }

/-! ## The batch reconciler (lines 302-431), with its write/read trace -/

inductive Entity where
  | venue
  | trainer
  | person
  | event
  | attendance
deriving DecidableEq

/-- The payload of one upsert inside a transaction. -/
inductive UpsertArg where
  | loc (name : String)
  | user (email name : String)
  | cust (id name : String)
  | lesson (l : LessonRec)
  | part (row : ValidRow)
deriving DecidableEq

/-- One database interaction issued by the reconciler: a transaction of
upserts for one entity type, or a `findMany` re-read of the identifiers
assigned to one entity type. -/
inductive Op where
  | txn (e : Entity) (args : List UpsertArg)
  | readIds (e : Entity) (keys : List String)
deriving DecidableEq

def batchSize : Nat := 50

/-- `for (const chunk of chunkArray(...)) await prisma.$transaction(chunk.map(...))`
for an entity whose upsert cannot throw: apply each chunk in order and
record one transaction per chunk. -/
def runChunks (f : Store → α → Store) (e : Entity) (mk : α → UpsertArg)
    (s : Store) (chunks : List (List α)) : Store × List Op :=
  chunks.foldl
    (fun acc chunk => (chunk.foldl f acc.1, acc.2 ++ [Op.txn e (chunk.map mk)]))
    (s, [])

/-- `new Map(pairs).get(k)`: the value of the last pair with key `k`. -/
def jsMapGet (pairs : List (String × Nat)) (k : String) : Option Nat :=
  (pairs.reverse.find? (fun p => p.1 = k)).map (·.2)

/-- `locationIdByName` built from the re-read (lines 315-318). -/
def locationIdByName (locs : List LocationRec) (names : List String) :
    String → Option Nat :=
  fun k => jsMapGet ((locs.filter (fun l => names.contains l.name)).map
    (fun l => (l.name, l.id))) k

/-- `instructorIdByEmail` built from the re-read (lines 344-348). -/
def instructorIdByEmail (users : List UserRec) (emails : List String) :
    String → Option Nat :=
  fun k => jsMapGet ((users.filter (fun u => emails.contains u.email)).map
    (fun u => (u.email, u.id))) k

/-- Building one lesson upsert payload (lines 376-400); a missing
instructor or location id throws while the operation array is being
built, before the transaction runs. -/
def mkLessonUpsert (instrId locId : String → Option Nat) (l : LessonEntry) :
    Except String LessonRec :=
  match instrId l.instructorEmail, locId l.locationName with
  | some i, some loc =>
    .ok { id := l.id
        , lessonType := if l.lessonType = "" then "Group" else l.lessonType
        , instructorId := i
        , locationId := loc
        , lessonContent := strOrNull l.lessonContent
        , createdAt := l.lessonDate }
  | _, _ => .error "Missing instructor or location during lesson import"

/-- The lesson chunk loop (lines 374-404): a thrown error aborts the
remaining chunks (previously committed chunks stay committed). -/
def runLessonChunks (instrId locId : String → Option Nat) (s : Store)
    (chunks : List (List LessonEntry)) : Store × List Op × Option String :=
  chunks.foldl
    (fun acc chunk =>
      match acc.2.2 with
      | some _ => acc
      | none =>
        match chunk.mapM (mkLessonUpsert instrId locId) with
        | .error e => (acc.1, acc.2.1, some e)
        | .ok ups =>
          (ups.foldl applyLessonUpsert acc.1,
           acc.2.1 ++ [Op.txn .event (ups.map UpsertArg.lesson)], none))
    (s, [], none)

/-- The whole reconciler (lines 256-431): resolve the entity maps, then
write venues, trainers, persons, events, attendances in that order, with
the two identifier re-reads after the venue and trainer writes. -/
def reconcile (s : Store) (validRows : List ValidRow) :
    Store × List Op × Option String :=
  let maps := buildMaps validRows
  let locationNames := maps.locations
  let r1 := runChunks upsertLocation .venue UpsertArg.loc s
    (chunkArray locationNames batchSize)
  let locIds := locationIdByName r1.1.locations locationNames
  let tr1 := r1.2 ++ [Op.readIds .venue locationNames]
  let instructorRecords := maps.instructors.map Prod.snd
  let r2 := runChunks upsertInstructor .trainer (fun i => UpsertArg.user i.email i.name)
    r1.1 (chunkArray instructorRecords batchSize)
  let instructorEmails := instructorRecords.map (·.email)
  let instrIds := instructorIdByEmail r2.1.users instructorEmails
  let tr2 := tr1 ++ r2.2 ++ [Op.readIds .trainer instructorEmails]
  let customerRecords := maps.customers.map Prod.snd
  let r3 := runChunks upsertCustomer .person (fun c => UpsertArg.cust c.id c.name)
    r2.1 (chunkArray customerRecords batchSize)
  let tr3 := tr2 ++ r3.2
  let lessonRecords := maps.lessons.map Prod.snd
  let r4 := runLessonChunks instrIds locIds r3.1 (chunkArray lessonRecords batchSize)
  let tr4 := tr3 ++ r4.2.1
  match r4.2.2 with
  | some e => (r4.1, tr4, some e)
  | none =>
    let r5 := runChunks upsertParticipant .attendance UpsertArg.part r4.1
      (chunkArray validRows batchSize)
    (r5.1, tr4 ++ r5.2, none)

/-! ## The endpoint (post-decode part of `POST`) -/

/-- The JSON body of the response, with `""`/`[]`/`0` for absent fields. -/
structure ImportResponse where
  status : Nat := 0
  message : String := ""
  error : String := ""
  processedCount : Nat := 0
  errorCount : Nat := 0
  errors : List String := []
  missingHeaders : List String := []
  expectedHeaders : List String := []
deriving DecidableEq

structure ImportOutcome where
  resp : ImportResponse
  store : Store
  trace : List Op
deriving DecidableEq

/-- The header gate's missing-headers computation (lines 171-174), from the
first decoded row's labels. -/
def requiredMissing (data : List RawRow) : List String :=
  match data with
  | [] => []
  | firstRow :: _ =>
    let actualHeaders := (firstRow.map Prod.fst).map canonicalHeader
    REQUIRED_HEADERS.filter (fun h => ¬ actualHeaders.contains h)

/-- `POST` from the decoded `data` onwards (lines 164-457): empty-file
check, header gate, row validation, reconciliation, report. -/
def runImport (env : JsEnv) (s : Store) (data : List RawRow) : ImportOutcome :=
  match data with
  | [] => ⟨{ status := 400, error := "CSV file is empty" }, s, []⟩
  | _ :: _ =>
    let missingHeaders := requiredMissing data
    if missingHeaders ≠ [] then
      ⟨{ status := 400
       , error := "Import file is missing required headers"
       , missingHeaders := missingHeaders
       , expectedHeaders := REQUIRED_HEADERS }, s, []⟩
    else
      let st := validateLoop env data
      let recOut := if st.validRows.length > 0 then reconcile s st.validRows
        else (s, [], none)
      match recOut.2.2 with
      | some _ =>
        ⟨{ status := 500, error := "Internal server error during CSV import" },
         recOut.1, recOut.2.1⟩
      | none =>
        let processedCount := st.validRows.length
        if st.errorCount > 0 then
          ⟨{ status := 207
           , message := "Import completed with " ++ toString st.errorCount ++ " errors"
           , processedCount := processedCount
           , errorCount := st.errorCount
           , errors := st.rowErrors.take 10 }, recOut.1, recOut.2.1⟩
        else
          ⟨{ status := 200
           , message := "CSV import completed successfully"
           , processedCount := processedCount
           , errorCount := 0 }, recOut.1, recOut.2.1⟩

/-! ## A concrete executable environment (for witnesses) -/

/-- A decimal-integer fragment of JS `Number(string)` (with `Number('') = 0`),
enough to instantiate witnesses. -/
def strToNat? (s : String) : Option Nat :=
  if s.data ≠ [] ∧ s.data.all Char.isDigit then
    some (s.data.foldl (fun n c => n * 10 + (c.toNat - 48)) 0)
  else none

def jsSimpleNumber (s : String) : Option Int :=
  if s = "" then some 0 else (strToNat? s).map (fun n => (n : Int))

/-- A `YYYY-MM-DD` fragment of JS `new Date(string)` (such strings parse as
UTC midnight), enough to instantiate witnesses. -/
def isoParse (s : String) : Option Int :=
  match splitOnChar '-' s with
  | [y, m, d] =>
    match strToNat? y, strToNat? m, strToNat? d with
    | some yn, some mn, some dn =>
      if y.length = 4 ∧ 1 ≤ mn ∧ mn ≤ 12 ∧ 1 ≤ dn ∧ dn ≤ 31 then
        some (dateUTCms yn mn dn)
      else none
    | _, _, _ => none
  | _ => none

def demoEnv : JsEnv :=
  { toNumber := jsSimpleNumber
  , parseDate := isoParse
  , toNumber_empty := by decide }

/-! ## Spec-side predicates and concrete fixtures used in theorem statements -/

/-- Did the row loop accept this row? -/
def rowOk (env : JsEnv) (raw : RawRow) : Bool :=
  match parseRow env raw with
  | .ok _ => true
  | .error _ => false

/-- The rejection reason for this row, when rejected. -/
def rowReason (env : JsEnv) (raw : RawRow) : Option String :=
  match parseRow env raw with
  | .ok _ => none
  | .error r => some r

/-- One of the five mandatory cells is empty after trimming. -/
def mandatoryCellMissing (raw : RawRow) : Prop :=
  rowGet raw "customer id" = "" ∨ rowGet raw "customer name" = "" ∨
  rowGet raw "lesson id" = "" ∨ rowGet raw "lesson date" = "" ∨
  rowGet raw "instructor name" = ""

instance (raw : RawRow) : Decidable (mandatoryCellMissing raw) := by
  unfold mandatoryCellMissing; infer_instance

/-- The earliest parsed date among the rows of one event. -/
def earliestDateFor (rows : List ValidRow) (k : String) : Option Int :=
  ((rows.filter (fun r => r.lessonId = k)).map (fun r => r.parsedLessonDate)).min?

/-- The content of the first row (in file order) of event `k` whose content
cell is non-empty, or `""` when no row supplies content. -/
def firstContentFor (rows : List ValidRow) (k : String) : String :=
  match (rows.filter (fun r => r.lessonId = k ∧ r.lessonContent ≠ "")).head? with
  | some r => r.lessonContent
  | none => ""

/-- The last row (in file order) for one `(customerId, lessonId)` pair. -/
def lastRowFor (rows : List ValidRow) (cid lid : String) : Option ValidRow :=
  (rows.filter (fun r => r.customerId = cid ∧ r.lessonId = lid)).getLast?

def isEventTxn : Op → Bool
  | .txn .event _ => true
  | _ => false

def isAttendanceTxn : Op → Bool
  | .txn .attendance _ => true
  | _ => false

def isRead : Op → Bool
  | .readIds _ _ => true
  | _ => false

/-- Is some identifier re-read issued after the first Event transaction and
before the first Attendance transaction of the trace? -/
def readBetweenEventAndAttendance (trace : List Op) : Bool :=
  (((trace.dropWhile (fun op => !(isEventTxn op))).takeWhile
    (fun op => !(isAttendanceTxn op))).any isRead)

def emptyStore : Store := ⟨[], [], [], [], [], 0⟩

/-- A decoded data row under the standard upload template headers. -/
def wRow (cid cname lid ldate iname loc content ccs : String) : RawRow :=
  [ ("Customer ID", cid), ("Customer Name", cname), ("Initial Symptom", "sore")
  , ("Lesson ID", lid), ("Lesson Date", ldate), ("Instructor Name", iname)
  , ("Lesson Type", ""), ("Customer Symptoms", "sym"), ("Lesson Content", content)
  , ("Course Completion Status", ccs), ("Location", loc) ]

/-- Two valid rows for event `E1` plus a row with an empty `Customer ID`. -/
def demoData : List RawRow :=
  [ wRow "C1" "Ann Lee" "E1" "2024-01-10" "Bob Tran" "Hall A" "" "done"
  , wRow "C2" "Cy Wu" "E1" "2024-01-05" "Bob Tran" "" "Intro session" ""
  , wRow "" "NoId" "E2" "2024-01-05" "Bob Tran" "" "" "" ]

/-- A single data row whose header row lacks any `lesson date` alias. -/
def noDateHeaderData : List RawRow :=
  [ [ ("Customer ID", "C1"), ("Customer Name", "Ann Lee")
    , ("Initial Symptom", "sore"), ("Lesson ID", "E1")
    , ("Instructor Name", "Bob Tran"), ("Lesson Type", "")
    , ("Customer Symptoms", "sym"), ("Lesson Content", "")
    , ("Course Completion Status", ""), ("Location", "") ] ]

/-- A file whose only data row is rejected (empty `Customer ID`). -/
def allRejectedData : List RawRow :=
  [ wRow "" "Ann Lee" "E1" "2024-01-10" "Bob Tran" "" "" "" ]

/-- A store that already holds customer `C1` with a real e-mail address. -/
def c9Store : Store :=
  { locations := []
  , users := []
  , customers := [⟨"C1", "Old", "Name", "real@example.com", some "123", none, none⟩]
  , lessons := []
  , participants := []
  , nextId := 100 }

/-- The canonicalized labels of the first decoded row (the fields the
header gate actually found). -/
def foundCanonicalFields (data : List RawRow) : List String :=
  match data with
  | [] => []
  | firstRow :: _ => (firstRow.map Prod.fst).map canonicalHeader

/-- `mkLessonUpsert` with the (never reachable) error case given a default
value; used to state the reconciler's closed forms. -/
def mkLessonTotal (instrId locId : String → Option Nat) (l : LessonEntry) :
    LessonRec :=
  match mkLessonUpsert instrId locId l with
  | .ok r => r
  | .error _ => default

/-- Structural invariants of the resolved entity maps: every value carries
its own key, keys are deduplicated, and every lesson entry's foreign keys
point into the location set / instructor map. -/
structure MapsInv (m : EntityMaps) : Prop where
  custKey : ∀ p ∈ m.customers, p.2.id = p.1
  instrKey : ∀ p ∈ m.instructors, p.2.email = p.1
  lessonKey : ∀ p ∈ m.lessons, p.2.id = p.1
  custNodup : (m.customers.map Prod.fst).Nodup
  instrNodup : (m.instructors.map Prod.fst).Nodup
  lessonNodup : (m.lessons.map Prod.fst).Nodup
  locNodup : m.locations.Nodup
  lessonLoc : ∀ p ∈ m.lessons, p.2.locationName ∈ m.locations
  lessonInstr : ∀ p ∈ m.lessons, p.2.instructorEmail ∈ m.instructors.map Prod.fst

/-! ## List utilities -/

theorem map_eq_self_of {l : List α} {f : α → α} (h : ∀ x ∈ l, f x = x) :
    l.map f = l := by
  induction l with
  | nil => rfl
  | cons x xs ih =>
    simp only [List.map_cons, h x (by simp), ih (fun y hy => h y (by simp [hy]))]

theorem chunkArrayGo_fuel (n : Nat) :
    ∀ (fuel fuel' : Nat) (l : List α), l.length ≤ fuel → l.length ≤ fuel' →
      chunkArrayGo (n + 1) fuel l = chunkArrayGo (n + 1) fuel' l := by
  intro fuel
  induction fuel with
  | zero =>
    intro fuel' l hl hl'
    have : l = [] := List.eq_nil_of_length_eq_zero (Nat.le_zero.1 hl)
    subst this
    cases fuel' <;> rfl
  | succ f ih =>
    intro fuel' l hl hl'
    cases l with
    | nil => cases fuel' <;> rfl
    | cons x xs =>
      cases fuel' with
      | zero => simp at hl'
      | succ f' =>
        simp only [chunkArrayGo]
        congr 1
        apply ih
        · simp at hl ⊢
          omega
        · simp at hl' ⊢
          omega

theorem chunkArray_nil (n : Nat) : chunkArray ([] : List α) n = [] := by
  cases n <;> rfl

theorem chunkArray_cons (x : α) (xs : List α) (n : Nat) :
    chunkArray (x :: xs) (n + 1) =
      ((x :: xs).take (n + 1)) :: chunkArray ((x :: xs).drop (n + 1)) (n + 1) := by
  show chunkArrayGo (n + 1) (x :: xs).length (x :: xs) = _
  simp only [List.length_cons, chunkArrayGo]
  congr 1
  show chunkArrayGo (n + 1) xs.length ((x :: xs).drop (n + 1)) =
    chunkArrayGo (n + 1) ((x :: xs).drop (n + 1)).length ((x :: xs).drop (n + 1))
  apply chunkArrayGo_fuel
  · simp
  · exact le_rfl

theorem chunkArray_flatten (l : List α) (n : Nat) :
    (chunkArray l (n + 1)).flatten = l := by
  suffices H : ∀ (k : Nat) (l : List α), l.length ≤ k →
      (chunkArray l (n + 1)).flatten = l from H l.length l le_rfl
  intro k
  induction k with
  | zero =>
    intro l hl
    have : l = [] := List.eq_nil_of_length_eq_zero (Nat.le_zero.1 hl)
    subst this
    simp [chunkArray_nil]
  | succ k ih =>
    intro l hl
    match l with
    | [] => simp [chunkArray_nil]
    | x :: xs =>
      rw [chunkArray_cons]
      simp only [List.flatten_cons]
      rw [ih ((x :: xs).drop (n + 1)) (by simp at hl ⊢; omega)]
      exact List.take_append_drop _ _

theorem chunkArray_mem_length {l : List α} {n : Nat} {c : List α}
    (h : c ∈ chunkArray l (n + 1)) : c.length ≤ n + 1 := by
  suffices H : ∀ (k : Nat) (l : List α), l.length ≤ k →
      ∀ c ∈ chunkArray l (n + 1), c.length ≤ n + 1 from H l.length l le_rfl c h
  intro k
  induction k with
  | zero =>
    intro l hl c hc
    have : l = [] := List.eq_nil_of_length_eq_zero (Nat.le_zero.1 hl)
    subst this
    rw [chunkArray_nil] at hc
    cases hc
  | succ k ih =>
    intro l hl c hc
    match l with
    | [] =>
      rw [chunkArray_nil] at hc
      cases hc
    | x :: xs =>
      rw [chunkArray_cons] at hc
      rcases List.mem_cons.1 hc with hc | hc
      · subst hc
        exact List.length_take_le (n + 1) (x :: xs)
      · exact ih ((x :: xs).drop (n + 1)) (by simp at hl ⊢; omega) c hc

theorem runChunks_go (f : Store → α → Store) (e : Entity) (mk : α → UpsertArg)
    (chunks : List (List α)) : ∀ (s : Store) (tr : List Op),
    chunks.foldl
      (fun acc chunk => (chunk.foldl f acc.1, acc.2 ++ [Op.txn e (chunk.map mk)]))
      (s, tr) =
    (chunks.flatten.foldl f s, tr ++ chunks.map (fun ch => Op.txn e (ch.map mk))) := by
  induction chunks with
  | nil => intro s tr; simp
  | cons c cs ih =>
    intro s tr
    simp only [List.foldl_cons, ih, List.flatten_cons, List.foldl_append,
      List.map_cons, List.append_assoc, List.cons_append, List.nil_append]

theorem runChunks_fst (f : Store → α → Store) (e : Entity) (mk : α → UpsertArg)
    (s : Store) (chunks : List (List α)) :
    (runChunks f e mk s chunks).1 = chunks.flatten.foldl f s := by
  simp [runChunks, runChunks_go]

theorem runChunks_snd (f : Store → α → Store) (e : Entity) (mk : α → UpsertArg)
    (s : Store) (chunks : List (List α)) :
    (runChunks f e mk s chunks).2 = chunks.map (fun ch => Op.txn e (ch.map mk)) := by
  simp [runChunks, runChunks_go]

/-! ## The row loop, characterized -/

theorem validate_foldl_spec (env : JsEnv) (data : List RawRow) :
    ∀ (n : Nat) (st : ValidationState),
    (List.enumFrom n data).foldl (validateStep env) st =
      ⟨ st.validRows ++ data.filterMap (fun raw => (parseRow env raw).toOption)
      , st.rowErrors ++ (List.enumFrom n data).filterMap
          (fun p => (rowReason env p.2).map (rowErrorMsg (p.1 + 2)))
      , st.errorCount + data.countP (fun raw => !(rowOk env raw)) ⟩ := by
  induction data with
  | nil => intro n st; simp [List.enumFrom]
  | cons raw rest ih =>
    intro n st
    simp only [List.enumFrom, List.foldl_cons]
    cases h : parseRow env raw with
    | error r =>
      simp only [validateStep, h]
      rw [ih]
      simp [rowOk, rowReason, h, Except.toOption, List.append_assoc,
        List.countP_cons, ValidationState.mk.injEq]
      omega
    | ok r =>
      simp only [validateStep, h]
      rw [ih]
      simp [rowOk, rowReason, h, Except.toOption, List.append_assoc,
        List.countP_cons, ValidationState.mk.injEq]

/-- The row loop, as three closed-form equations. -/
theorem validateLoop_spec (env : JsEnv) (data : List RawRow) :
    validateLoop env data =
      ⟨ data.filterMap (fun raw => (parseRow env raw).toOption)
      , data.enum.filterMap (fun p => (rowReason env p.2).map (rowErrorMsg (p.1 + 2)))
      , data.countP (fun raw => !(rowOk env raw)) ⟩ := by
  have h := validate_foldl_spec env data 0 ⟨[], [], 0⟩
  simp only [validateLoop, List.enum]
  exact h.trans (by simp)

/-! ## JS `Map`/`Set` lemmas -/

theorem mapSet_keys (m : List (String × α)) (k : String) (v : α) :
    (mapSet m k v).map Prod.fst =
      if m.any (·.1 = k) then m.map Prod.fst else m.map Prod.fst ++ [k] := by
  unfold mapSet
  split
  · rw [List.map_map]
    refine List.map_congr_left (fun p _ => ?_)
    by_cases hpk : p.1 = k
    · simp [hpk]
    · simp [hpk]
  · simp

theorem mapSet_entry_prop {m : List (String × α)} (P : String × α → Prop)
    (h : ∀ p ∈ m, P p) (hkv : P (k, v)) : ∀ p ∈ mapSet m k v, P p := by
  intro p hp
  unfold mapSet at hp
  split at hp
  · rcases List.mem_map.1 hp with ⟨q, hq, rfl⟩
    by_cases hqk : q.1 = k
    · simpa [hqk] using hkv
    · simpa [hqk] using h q hq
  · rcases List.mem_append.1 hp with hp | hp
    · exact h p hp
    · simp only [List.mem_singleton] at hp
      exact hp ▸ hkv

theorem mapSet_keys_nodup {m : List (String × α)} (h : (m.map Prod.fst).Nodup) :
    ((mapSet m k v).map Prod.fst).Nodup := by
  rw [mapSet_keys]
  split
  · exact h
  · rename_i hany
    refine h.append (by simp) ?_
    simp only [List.any_eq_true, decide_eq_true_eq, not_exists, not_and] at hany
    simp only [List.disjoint_singleton]
    intro hk
    rcases List.mem_map.1 hk with ⟨q, hq, hqk⟩
    exact absurd hqk (by intro hh; exact absurd hh (by exact fun h2 => (hany q hq) h2) )

theorem mem_keys_mapSet_self (m : List (String × α)) (k : String) (v : α) :
    k ∈ (mapSet m k v).map Prod.fst := by
  rw [mapSet_keys]
  split
  · rename_i hany
    simp only [List.any_eq_true, decide_eq_true_eq] at hany
    rcases hany with ⟨q, hq, hqk⟩
    exact hqk ▸ List.mem_map_of_mem Prod.fst hq
  · simp

theorem mem_keys_mapSet_of {m : List (String × α)} (h : x ∈ m.map Prod.fst) :
    x ∈ (mapSet m k v).map Prod.fst := by
  rw [mapSet_keys]
  split
  · exact h
  · exact List.mem_append_left _ h

theorem mem_setAdd_self (s : List String) (x : String) : x ∈ setAdd s x := by
  unfold setAdd
  split
  · rename_i h
    exact List.mem_of_elem_eq_true h
  · simp

theorem mem_setAdd_of {s : List String} (h : y ∈ s) : y ∈ setAdd s x := by
  unfold setAdd
  split
  · exact h
  · exact List.mem_append_left _ h

theorem setAdd_nodup {s : List String} (h : s.Nodup) : (setAdd s x).Nodup := by
  unfold setAdd
  split
  · exact h
  · rename_i hx
    refine h.append (by simp) ?_
    simp only [List.disjoint_singleton]
    intro hmem
    exact hx (List.elem_eq_true_of_mem hmem)

/-! ## The entity maps: invariants of the resolver fold -/

theorem updateLessonEntry_id (e : LessonEntry) (row : ValidRow) :
    (updateLessonEntry e row).id = e.id := by
  unfold updateLessonEntry
  dsimp only
  split <;> split <;> rfl

theorem updateLessonEntry_locationName (e : LessonEntry) (row : ValidRow) :
    (updateLessonEntry e row).locationName = e.locationName := by
  unfold updateLessonEntry
  dsimp only
  split <;> split <;> rfl

theorem updateLessonEntry_instructorEmail (e : LessonEntry) (row : ValidRow) :
    (updateLessonEntry e row).instructorEmail = e.instructorEmail := by
  unfold updateLessonEntry
  dsimp only
  split <;> split <;> rfl

theorem updateLessonEntry_lessonType (e : LessonEntry) (row : ValidRow) :
    (updateLessonEntry e row).lessonType = e.lessonType := by
  unfold updateLessonEntry
  dsimp only
  split <;> split <;> rfl

theorem resolveStep_customers (m : EntityMaps) (row : ValidRow) :
    (resolveStep m row).customers =
      mapSet m.customers row.customerId ⟨row.customerId, row.customerName⟩ := by
  unfold resolveStep
  dsimp only
  split <;> rfl

theorem resolveStep_instructors (m : EntityMaps) (row : ValidRow) :
    (resolveStep m row).instructors =
      mapSet m.instructors (buildInstructorEmail row.instructorName)
        ⟨buildInstructorEmail row.instructorName, row.instructorName⟩ := by
  unfold resolveStep
  dsimp only
  split <;> rfl

theorem resolveStep_locations (m : EntityMaps) (row : ValidRow) :
    (resolveStep m row).locations = setAdd m.locations (normalizedLocationOf row) := by
  unfold resolveStep
  dsimp only
  split <;> rfl

theorem resolveStep_lessons (m : EntityMaps) (row : ValidRow) :
    (resolveStep m row).lessons =
      if m.lessons.any (·.1 = row.lessonId) then
        m.lessons.map fun p =>
          if p.1 = row.lessonId then (p.1, updateLessonEntry p.2 row) else p
      else
        m.lessons ++ [(row.lessonId,
          initLessonEntry row (buildInstructorEmail row.instructorName)
            (normalizedLocationOf row))] := by
  unfold resolveStep
  dsimp only
  split <;> simp_all

theorem resolveStep_inv {m : EntityMaps} (h : MapsInv m) (row : ValidRow) :
    MapsInv (resolveStep m row) := by
  constructor
  · rw [resolveStep_customers]
    exact mapSet_entry_prop _ h.custKey rfl
  · rw [resolveStep_instructors]
    exact mapSet_entry_prop _ h.instrKey rfl
  · rw [resolveStep_lessons]
    split
    · intro p hp
      rcases List.mem_map.1 hp with ⟨q, hq, rfl⟩
      by_cases hqk : q.1 = row.lessonId
      · rw [if_pos hqk]
        exact (updateLessonEntry_id q.2 row).trans (h.lessonKey q hq)
      · rw [if_neg hqk]
        exact h.lessonKey q hq
    · intro p hp
      rcases List.mem_append.1 hp with hp | hp
      · exact h.lessonKey p hp
      · simp only [List.mem_singleton] at hp
        subst hp
        rfl
  · rw [resolveStep_customers]
    exact mapSet_keys_nodup h.custNodup
  · rw [resolveStep_instructors]
    exact mapSet_keys_nodup h.instrNodup
  · rw [resolveStep_lessons]
    split
    · have heq : ((m.lessons.map fun p =>
          if p.1 = row.lessonId then (p.1, updateLessonEntry p.2 row) else p).map
            Prod.fst) = m.lessons.map Prod.fst := by
        rw [List.map_map]
        refine List.map_congr_left (fun p _ => ?_)
        by_cases hpk : p.1 = row.lessonId <;> simp [hpk]
      rw [heq]
      exact h.lessonNodup
    · rename_i hany
      simp only [List.map_append, List.map_cons, List.map_nil]
      refine h.lessonNodup.append (by simp) ?_
      simp only [List.any_eq_true, decide_eq_true_eq, not_exists, not_and] at hany
      simp only [List.disjoint_singleton]
      intro hk
      rcases List.mem_map.1 hk with ⟨q, hq, hqk⟩
      exact (hany q hq) hqk
  · rw [resolveStep_locations]
    exact setAdd_nodup h.locNodup
  · rw [resolveStep_lessons, resolveStep_locations]
    split
    · intro p hp
      rcases List.mem_map.1 hp with ⟨q, hq, rfl⟩
      by_cases hqk : q.1 = row.lessonId
      · rw [if_pos hqk]
        exact mem_setAdd_of
          ((updateLessonEntry_locationName q.2 row) ▸ h.lessonLoc q hq)
      · rw [if_neg hqk]
        exact mem_setAdd_of (h.lessonLoc q hq)
    · intro p hp
      rcases List.mem_append.1 hp with hp | hp
      · exact mem_setAdd_of (h.lessonLoc p hp)
      · simp only [List.mem_singleton] at hp
        subst hp
        exact mem_setAdd_self _ _
  · rw [resolveStep_lessons, resolveStep_instructors]
    split
    · intro p hp
      rcases List.mem_map.1 hp with ⟨q, hq, rfl⟩
      by_cases hqk : q.1 = row.lessonId
      · rw [if_pos hqk]
        exact mem_keys_mapSet_of
          ((updateLessonEntry_instructorEmail q.2 row) ▸ h.lessonInstr q hq)
      · rw [if_neg hqk]
        exact mem_keys_mapSet_of (h.lessonInstr q hq)
    · intro p hp
      rcases List.mem_append.1 hp with hp | hp
      · exact mem_keys_mapSet_of (h.lessonInstr p hp)
      · simp only [List.mem_singleton] at hp
        subst hp
        exact mem_keys_mapSet_self _ _ _

theorem buildMaps_inv (rows : List ValidRow) : MapsInv (buildMaps rows) := by
  unfold buildMaps
  suffices H : ∀ (m : EntityMaps), MapsInv m → MapsInv (rows.foldl resolveStep m) by
    refine H _ ?_
    constructor <;> simp
  induction rows with
  | nil => intro m hm; exact hm
  | cons r rs ih => intro m hm; exact ih _ (resolveStep_inv hm r)

/-! ## Store frame and presence lemmas for the upsert operations -/

theorem upsertLocation_frame (s : Store) (name : String) :
    (upsertLocation s name).users = s.users ∧
    (upsertLocation s name).customers = s.customers ∧
    (upsertLocation s name).lessons = s.lessons ∧
    (upsertLocation s name).participants = s.participants := by
  unfold upsertLocation
  split <;> exact ⟨rfl, rfl, rfl, rfl⟩

theorem upsertInstructor_frame (s : Store) (e : InstructorEntry) :
    (upsertInstructor s e).locations = s.locations ∧
    (upsertInstructor s e).customers = s.customers ∧
    (upsertInstructor s e).lessons = s.lessons ∧
    (upsertInstructor s e).participants = s.participants := by
  unfold upsertInstructor
  split <;> exact ⟨rfl, rfl, rfl, rfl⟩

theorem upsertCustomer_frame (s : Store) (c : CustomerEntry) :
    (upsertCustomer s c).locations = s.locations ∧
    (upsertCustomer s c).users = s.users ∧
    (upsertCustomer s c).lessons = s.lessons ∧
    (upsertCustomer s c).participants = s.participants ∧
    (upsertCustomer s c).nextId = s.nextId := by
  unfold upsertCustomer
  split <;> exact ⟨rfl, rfl, rfl, rfl, rfl⟩

theorem applyLessonUpsert_frame (s : Store) (l : LessonRec) :
    (applyLessonUpsert s l).locations = s.locations ∧
    (applyLessonUpsert s l).users = s.users ∧
    (applyLessonUpsert s l).customers = s.customers ∧
    (applyLessonUpsert s l).participants = s.participants ∧
    (applyLessonUpsert s l).nextId = s.nextId := by
  unfold applyLessonUpsert
  split <;> exact ⟨rfl, rfl, rfl, rfl, rfl⟩

theorem upsertParticipant_frame (s : Store) (row : ValidRow) :
    (upsertParticipant s row).locations = s.locations ∧
    (upsertParticipant s row).users = s.users ∧
    (upsertParticipant s row).customers = s.customers ∧
    (upsertParticipant s row).lessons = s.lessons := by
  unfold upsertParticipant
  split <;> exact ⟨rfl, rfl, rfl, rfl⟩

theorem foldl_proj_const {β γ : Type _} (f : Store → β → Store) (proj : Store → γ)
    (h : ∀ s b, proj (f s b) = proj s) :
    ∀ (l : List β) (s : Store), proj (l.foldl f s) = proj s := by
  intro l
  induction l with
  | nil => intro s; rfl
  | cons b bs ih => intro s; rw [List.foldl_cons, ih, h]

theorem upsertLocation_present (s : Store) (name : String) :
    ∃ l ∈ (upsertLocation s name).locations, l.name = name := by
  unfold upsertLocation
  split
  · rename_i h
    simp only [List.any_eq_true, decide_eq_true_eq] at h
    exact h
  · exact ⟨⟨s.nextId, name⟩, by simp⟩

theorem upsertLocation_super {s : Store} {l : LocationRec}
    (h : l ∈ s.locations) (name : String) : l ∈ (upsertLocation s name).locations := by
  unfold upsertLocation
  split
  · exact h
  · exact List.mem_append_left _ h

theorem foldl_upsertLocation_super {s : Store} {l : LocationRec}
    (h : l ∈ s.locations) (names : List String) :
    l ∈ (names.foldl upsertLocation s).locations := by
  induction names generalizing s with
  | nil => exact h
  | cons n ns ih => exact ih (upsertLocation_super h n)

theorem foldl_upsertLocation_present (names : List String) :
    ∀ (s : Store), ∀ k ∈ names,
      ∃ l ∈ (names.foldl upsertLocation s).locations, l.name = k := by
  induction names with
  | nil => intro s k hk; cases hk
  | cons n ns ih =>
    intro s k hk
    rcases List.mem_cons.1 hk with rfl | hk
    · obtain ⟨l, hl, hlk⟩ := upsertLocation_present s k
      exact ⟨l, foldl_upsertLocation_super hl ns, hlk⟩
    · exact ih _ k hk

theorem upsertInstructor_email_present (s : Store) (e : InstructorEntry) :
    ∃ u ∈ (upsertInstructor s e).users, u.email = e.email := by
  unfold upsertInstructor
  split
  · rename_i h
    simp only [List.any_eq_true, decide_eq_true_eq] at h
    obtain ⟨u, hu, hue⟩ := h
    refine ⟨_, List.mem_map_of_mem _ hu, ?_⟩
    rw [if_pos hue]
    exact hue
  · exact ⟨{ id := s.nextId
           , username := buildInstructorUsername e.name
           , password := "imported_password_hash"
           , role := "INSTRUCTOR"
           , firstName := (splitFirstRest e.name).1
           , lastName := (splitFirstRest e.name).2
           , email := e.email }, List.mem_append_right _ (by simp), rfl⟩

theorem upsertInstructor_email_pres {s : Store} {k : String}
    (h : ∃ u ∈ s.users, u.email = k) (e : InstructorEntry) :
    ∃ u ∈ (upsertInstructor s e).users, u.email = k := by
  obtain ⟨u, hu, huk⟩ := h
  unfold upsertInstructor
  split
  · refine ⟨_, List.mem_map_of_mem _ hu, ?_⟩
    by_cases hue : u.email = e.email
    · rw [if_pos hue]; exact huk
    · rw [if_neg hue]; exact huk
  · exact ⟨u, List.mem_append_left _ hu, huk⟩

theorem foldl_upsertInstructor_email_pres {s : Store} {k : String}
    (h : ∃ u ∈ s.users, u.email = k) (entries : List InstructorEntry) :
    ∃ u ∈ (entries.foldl upsertInstructor s).users, u.email = k := by
  induction entries generalizing s with
  | nil => exact h
  | cons e es ih => exact ih (upsertInstructor_email_pres h e)

theorem foldl_upsertInstructor_email_present (entries : List InstructorEntry) :
    ∀ (s : Store), ∀ e ∈ entries,
      ∃ u ∈ (entries.foldl upsertInstructor s).users, u.email = e.email := by
  induction entries with
  | nil => intro s e he; cases he
  | cons a as ih =>
    intro s e he
    rcases List.mem_cons.1 he with rfl | he
    · exact foldl_upsertInstructor_email_pres (upsertInstructor_email_present s e) as
    · exact ih _ e he

/-! ## The identifier re-read maps -/

theorem jsMapGet_isSome {pairs : List (String × Nat)} {k : String}
    (h : ∃ p ∈ pairs, p.1 = k) : (jsMapGet pairs k).isSome := by
  unfold jsMapGet
  obtain ⟨p, hp, hpk⟩ := h
  have hsome : (List.find? (fun p => decide (p.1 = k)) pairs.reverse).isSome := by
    rw [List.find?_isSome]
    exact ⟨p, List.mem_reverse.2 hp, by simp [hpk]⟩
  obtain ⟨q, hq⟩ := Option.isSome_iff_exists.1 hsome
  simp [hq]

theorem locationIdByName_isSome {locs : List LocationRec} {names : List String}
    {k : String} (h1 : k ∈ names) (h2 : ∃ l ∈ locs, l.name = k) :
    (locationIdByName locs names k).isSome := by
  unfold locationIdByName
  obtain ⟨l, hl, hlk⟩ := h2
  refine jsMapGet_isSome ⟨(l.name, l.id), List.mem_map_of_mem _ ?_, hlk⟩
  rw [List.mem_filter]
  exact ⟨hl, by simpa [hlk] using List.elem_eq_true_of_mem h1⟩

theorem instructorIdByEmail_isSome {users : List UserRec} {emails : List String}
    {k : String} (h1 : k ∈ emails) (h2 : ∃ u ∈ users, u.email = k) :
    (instructorIdByEmail users emails k).isSome := by
  unfold instructorIdByEmail
  obtain ⟨u, hu, huk⟩ := h2
  refine jsMapGet_isSome ⟨(u.email, u.id), List.mem_map_of_mem _ ?_, huk⟩
  rw [List.mem_filter]
  exact ⟨hu, by simpa [huk] using List.elem_eq_true_of_mem h1⟩

/-! ## The lesson chunk loop under total lookups -/

theorem mkLessonUpsert_ok {instrId locId : String → Option Nat} {l : LessonEntry}
    (h1 : (instrId l.instructorEmail).isSome) (h2 : (locId l.locationName).isSome) :
    mkLessonUpsert instrId locId l = .ok (mkLessonTotal instrId locId l) := by
  unfold mkLessonTotal mkLessonUpsert
  obtain ⟨i, hi⟩ := Option.isSome_iff_exists.1 h1
  obtain ⟨v, hv⟩ := Option.isSome_iff_exists.1 h2
  rw [hi, hv]

theorem mapM_ok_of_forall {mk : LessonEntry → Except String LessonRec}
    {tot : LessonEntry → LessonRec} {ch : List LessonEntry}
    (h : ∀ l ∈ ch, mk l = .ok (tot l)) : ch.mapM mk = .ok (ch.map tot) := by
  induction ch with
  | nil => rfl
  | cons x xs ih =>
    rw [List.mapM_cons, h x (by simp)]
    rw [ih (fun l hl => h l (by simp [hl]))]
    rfl

theorem runLessonChunks_spec (instrId locId : String → Option Nat)
    (chunks : List (List LessonEntry))
    (h : ∀ l ∈ chunks.flatten,
      mkLessonUpsert instrId locId l = .ok (mkLessonTotal instrId locId l)) :
    ∀ (s : Store) (tr : List Op),
    chunks.foldl
      (fun acc chunk =>
        match acc.2.2 with
        | some _ => acc
        | none =>
          match chunk.mapM (mkLessonUpsert instrId locId) with
          | .error e => (acc.1, acc.2.1, some e)
          | .ok ups =>
            (ups.foldl applyLessonUpsert acc.1,
             acc.2.1 ++ [Op.txn .event (ups.map UpsertArg.lesson)], none))
      (s, tr, none) =
    ((chunks.flatten.map (mkLessonTotal instrId locId)).foldl applyLessonUpsert s,
     tr ++ chunks.map (fun ch =>
       Op.txn .event ((ch.map (mkLessonTotal instrId locId)).map UpsertArg.lesson)),
     none) := by
  induction chunks with
  | nil => intro s tr; simp
  | cons c cs ih =>
    intro s tr
    have hc : ∀ l ∈ c, mkLessonUpsert instrId locId l = .ok (mkLessonTotal instrId locId l) :=
      fun l hl => h l (by simp [hl])
    have hcs : ∀ l ∈ cs.flatten,
        mkLessonUpsert instrId locId l = .ok (mkLessonTotal instrId locId l) :=
      fun l hl => h l (by simp [hl])
    simp only [List.foldl_cons]
    rw [mapM_ok_of_forall hc]
    dsimp only
    rw [ih hcs]
    simp [List.foldl_append, List.append_assoc]

theorem runLessonChunks_eq (instrId locId : String → Option Nat)
    (chunks : List (List LessonEntry)) (s : Store)
    (h : ∀ l ∈ chunks.flatten,
      mkLessonUpsert instrId locId l = .ok (mkLessonTotal instrId locId l)) :
    runLessonChunks instrId locId s chunks =
    ((chunks.flatten.map (mkLessonTotal instrId locId)).foldl applyLessonUpsert s,
     chunks.map (fun ch =>
       Op.txn .event ((ch.map (mkLessonTotal instrId locId)).map UpsertArg.lesson)),
     none) := by
  unfold runLessonChunks
  rw [runLessonChunks_spec instrId locId chunks h s []]
  simp

/-! ## The reconciler, in closed form -/

theorem batchSize_succ : batchSize = 49 + 1 := rfl

theorem reconcile_spec (s : Store) (rows : List ValidRow) :
    reconcile s rows =
      (let maps := buildMaps rows
       let names := maps.locations
       let s1 := names.foldl upsertLocation s
       let locIds := locationIdByName s1.locations names
       let entries := maps.instructors.map Prod.snd
       let s2 := entries.foldl upsertInstructor s1
       let emails := entries.map (·.email)
       let instrIds := instructorIdByEmail s2.users emails
       let custs := maps.customers.map Prod.snd
       let s3 := custs.foldl upsertCustomer s2
       let lessonEntries := maps.lessons.map Prod.snd
       let payloads := lessonEntries.map (mkLessonTotal instrIds locIds)
       let s4 := payloads.foldl applyLessonUpsert s3
       let s5 := rows.foldl upsertParticipant s4
       (s5,
        (chunkArray names batchSize).map
            (fun ch => Op.txn .venue (ch.map UpsertArg.loc))
          ++ [Op.readIds .venue names]
          ++ (chunkArray entries batchSize).map
              (fun ch => Op.txn .trainer (ch.map (fun i => UpsertArg.user i.email i.name)))
          ++ [Op.readIds .trainer emails]
          ++ (chunkArray custs batchSize).map
              (fun ch => Op.txn .person (ch.map (fun c => UpsertArg.cust c.id c.name)))
          ++ (chunkArray lessonEntries batchSize).map
              (fun ch => Op.txn .event
                ((ch.map (mkLessonTotal instrIds locIds)).map UpsertArg.lesson))
          ++ (chunkArray rows batchSize).map
              (fun ch => Op.txn .attendance (ch.map UpsertArg.part)),
        none)) := by
  have hinv := buildMaps_inv rows
  unfold reconcile
  dsimp only
  simp only [runChunks_fst, runChunks_snd, batchSize_succ, chunkArray_flatten]
  have hkeys : (buildMaps rows).instructors.map Prod.fst =
      ((buildMaps rows).instructors.map Prod.snd).map (·.email) := by
    rw [List.map_map]
    exact List.map_congr_left (fun q hq => (hinv.instrKey q hq).symm)
  have h : ∀ l ∈ (chunkArray ((buildMaps rows).lessons.map Prod.snd) (49 + 1)).flatten,
      mkLessonUpsert
        (instructorIdByEmail
          ((((buildMaps rows).instructors.map Prod.snd).foldl upsertInstructor
            (((buildMaps rows).locations).foldl upsertLocation s)).users)
          (((buildMaps rows).instructors.map Prod.snd).map (·.email)))
        (locationIdByName
          ((((buildMaps rows).locations).foldl upsertLocation s).locations)
          ((buildMaps rows).locations)) l =
      .ok (mkLessonTotal
        (instructorIdByEmail
          ((((buildMaps rows).instructors.map Prod.snd).foldl upsertInstructor
            (((buildMaps rows).locations).foldl upsertLocation s)).users)
          (((buildMaps rows).instructors.map Prod.snd).map (·.email)))
        (locationIdByName
          ((((buildMaps rows).locations).foldl upsertLocation s).locations)
          ((buildMaps rows).locations)) l) := by
    intro l hl
    rw [chunkArray_flatten] at hl
    rcases List.mem_map.1 hl with ⟨p, hp, rfl⟩
    apply mkLessonUpsert_ok
    · have h1 := hinv.lessonInstr p hp
      rw [hkeys] at h1
      apply instructorIdByEmail_isSome h1
      rcases List.mem_map.1 h1 with ⟨e, he, hee⟩
      exact hee ▸ foldl_upsertInstructor_email_present _ _ e he
    · have h2 := hinv.lessonLoc p hp
      exact locationIdByName_isSome h2
        (foldl_upsertLocation_present _ _ _ h2)
  rw [runLessonChunks_eq _ _ _ _ h]
  dsimp only
  simp only [runChunks_fst, runChunks_snd, batchSize_succ, chunkArray_flatten,
    List.append_assoc]

theorem reconcile_thrown_none (s : Store) (rows : List ValidRow) :
    (reconcile s rows).2.2 = none := by
  rw [reconcile_spec]

/-! ## The endpoint, by branch -/

theorem runImport_nil (env : JsEnv) (s : Store) :
    runImport env s [] = ⟨{ status := 400, error := "CSV file is empty" }, s, []⟩ := rfl

theorem runImport_headerFail (env : JsEnv) (s : Store) (data : List RawRow)
    (hne : data ≠ []) (hhdr : requiredMissing data ≠ []) :
    runImport env s data =
      ⟨{ status := 400
       , error := "Import file is missing required headers"
       , missingHeaders := requiredMissing data
       , expectedHeaders := REQUIRED_HEADERS }, s, []⟩ := by
  match data with
  | d :: ds =>
    unfold runImport
    dsimp only
    rw [if_pos hhdr]

theorem runImport_eq (env : JsEnv) (s : Store) (data : List RawRow)
    (hne : data ≠ []) (hhdr : requiredMissing data = []) :
    runImport env s data =
      (let st := validateLoop env data
       let recOut := if st.validRows.length > 0 then reconcile s st.validRows
         else (s, [], none)
       if st.errorCount > 0 then
         ⟨{ status := 207
          , message := "Import completed with " ++ toString st.errorCount ++ " errors"
          , processedCount := st.validRows.length
          , errorCount := st.errorCount
          , errors := st.rowErrors.take 10 }, recOut.1, recOut.2.1⟩
       else
         ⟨{ status := 200
          , message := "CSV import completed successfully"
          , processedCount := st.validRows.length
          , errorCount := 0 }, recOut.1, recOut.2.1⟩) := by
  match data with
  | d :: ds =>
    unfold runImport
    dsimp only
    rw [if_neg (by simp [hhdr])]
    have hnone : (if (validateLoop env (d :: ds)).validRows.length > 0 then
        reconcile s (validateLoop env (d :: ds)).validRows
        else (s, [], none)).2.2 = none := by
      split
      · exact reconcile_thrown_none _ _
      · rfl
    rw [hnone]

/-! ## Keyed-upsert stage lemmas -/

theorem filter_eq_singleton_of_nodup {α} (f : α → String) {l : List α}
    (hnd : (l.map f).Nodup) {x : α} (hx : x ∈ l) :
    l.filter (fun y => f y = f x) = [x] := by
  induction l with
  | nil => cases hx
  | cons a as ih =>
    simp only [List.map_cons, List.nodup_cons] at hnd
    rcases List.mem_cons.1 hx with rfl | hx
    · rw [List.filter_cons_of_pos (by simp)]
      have h0 : as.filter (fun y => f y = f x) = [] := by
        rw [List.filter_eq_nil_iff]
        intro b hb
        simp only [decide_eq_true_eq]
        intro hba
        exact hnd.1 (hba ▸ List.mem_map_of_mem f hb)
      rw [h0]
    · rw [List.filter_cons_of_neg, ih hnd.2 hx]
      simp only [decide_eq_true_eq]
      intro hax
      exact hnd.1 (hax ▸ List.mem_map_of_mem f hx)

theorem lastRowFor_concat (rows : List ValidRow) (r : ValidRow) (cid lid : String) :
    lastRowFor (rows ++ [r]) cid lid =
      if r.customerId = cid ∧ r.lessonId = lid then some r
      else lastRowFor rows cid lid := by
  unfold lastRowFor
  rw [List.filter_append]
  split
  · rename_i h
    rw [List.filter_cons_of_pos (by simpa using h), List.filter_nil]
    exact List.getLast?_concat _
  · rename_i h
    rw [List.filter_cons_of_neg (by simpa using h), List.filter_nil,
      List.append_nil]

theorem lastRowFor_self {rows : List ValidRow} {r : ValidRow} (hr : r ∈ rows) :
    ∃ r', lastRowFor rows r.customerId r.lessonId = some r' ∧
      r'.customerId = r.customerId ∧ r'.lessonId = r.lessonId := by
  unfold lastRowFor
  have hne : (rows.filter (fun x => x.customerId = r.customerId ∧
      x.lessonId = r.lessonId)) ≠ [] := by
    intro hnil
    rw [List.filter_eq_nil_iff] at hnil
    exact hnil r hr (by simp)
  obtain ⟨r', hr'⟩ := Option.isSome_iff_exists.1 (Option.isSome_iff_ne_none.2
    (mt List.getLast?_eq_none_iff.1 hne))
  refine ⟨r', hr', ?_⟩
  have hmem := List.mem_of_mem_getLast? hr'
  have := List.mem_filter.1 hmem
  simpa using this.2

theorem upsertParticipant_vals (s : Store) (a : ValidRow) :
    ∀ p ∈ (upsertParticipant s a).participants,
      p.customerId = a.customerId → p.lessonId = a.lessonId →
        p.status = "attended" ∧ p.customerSymptoms = strOrNull a.customerSymptoms ∧
        p.customerImprovements = noteOf a := by
  intro p hp hpc hpl
  unfold upsertParticipant at hp
  split at hp
  · rcases List.mem_map.1 hp with ⟨q, hq, rfl⟩
    by_cases hqk : q.customerId = a.customerId ∧ q.lessonId = a.lessonId
    · rw [if_pos hqk]
      exact ⟨rfl, rfl, rfl⟩
    · rw [if_neg hqk] at hpc hpl ⊢
      exact absurd ⟨hpc, hpl⟩ hqk
  · rename_i hany
    rcases List.mem_append.1 hp with hp | hp
    · simp only [List.any_eq_true, decide_eq_true_eq] at hany
      exact absurd ⟨p, hp, hpc, hpl⟩ hany
    · simp only [List.mem_singleton] at hp
      subst hp
      exact ⟨rfl, rfl, rfl⟩

theorem upsertParticipant_pres (s : Store) (a : ValidRow) {cid lid : String}
    (hk : ¬(a.customerId = cid ∧ a.lessonId = lid)) (V : PartRec → Prop)
    (hvals : ∀ p ∈ s.participants, p.customerId = cid → p.lessonId = lid → V p) :
    ∀ p ∈ (upsertParticipant s a).participants,
      p.customerId = cid → p.lessonId = lid → V p := by
  intro p hp hpc hpl
  unfold upsertParticipant at hp
  split at hp
  · rcases List.mem_map.1 hp with ⟨q, hq, rfl⟩
    by_cases hqk : q.customerId = a.customerId ∧ q.lessonId = a.lessonId
    · rw [if_pos hqk] at hpc hpl ⊢
      exact absurd ⟨hqk.1.symm.trans hpc, hqk.2.symm.trans hpl⟩ hk
    · rw [if_neg hqk] at hpc hpl ⊢
      exact hvals q hq hpc hpl
  · rcases List.mem_append.1 hp with hp | hp
    · exact hvals p hp hpc hpl
    · simp only [List.mem_singleton] at hp
      subst hp
      exact absurd ⟨hpc, hpl⟩ hk

theorem upsertParticipant_present_self (s : Store) (a : ValidRow) :
    ∃ p ∈ (upsertParticipant s a).participants,
      p.customerId = a.customerId ∧ p.lessonId = a.lessonId := by
  unfold upsertParticipant
  split
  · rename_i hany
    simp only [List.any_eq_true, decide_eq_true_eq] at hany
    obtain ⟨q, hq, hqk⟩ := hany
    refine ⟨_, List.mem_map_of_mem _ hq, ?_⟩
    rw [if_pos hqk]
    exact hqk
  · exact ⟨_, List.mem_append_right _ (List.mem_singleton_self _), rfl, rfl⟩

theorem upsertParticipant_present_pres (s : Store) (a : ValidRow) {cid lid : String}
    (h : ∃ p ∈ s.participants, p.customerId = cid ∧ p.lessonId = lid) :
    ∃ p ∈ (upsertParticipant s a).participants,
      p.customerId = cid ∧ p.lessonId = lid := by
  obtain ⟨p, hp, hpc, hpl⟩ := h
  unfold upsertParticipant
  split
  · refine ⟨_, List.mem_map_of_mem _ hp, ?_⟩
    by_cases hpk : p.customerId = a.customerId ∧ p.lessonId = a.lessonId
    · rw [if_pos hpk]
      exact ⟨hpc, hpl⟩
    · rw [if_neg hpk]
      exact ⟨hpc, hpl⟩
  · exact ⟨p, List.mem_append_left _ hp, hpc, hpl⟩

/-- The participant stage: every record matching a key carries the values
of the last valid row for that key, and the key is present afterwards. -/
theorem partStage_spec (rows : List ValidRow) :
    ∀ (s : Store) (cid lid : String) (r : ValidRow),
      lastRowFor rows cid lid = some r →
      ((∀ p ∈ (rows.foldl upsertParticipant s).participants,
          p.customerId = cid → p.lessonId = lid →
            p.status = "attended" ∧
            p.customerSymptoms = strOrNull r.customerSymptoms ∧
            p.customerImprovements = noteOf r) ∧
       (∃ p ∈ (rows.foldl upsertParticipant s).participants,
          p.customerId = cid ∧ p.lessonId = lid)) := by
  induction rows using List.reverseRecOn with
  | nil => intro s cid lid r hr; simp [lastRowFor] at hr
  | append_singleton rows a ih =>
    intro s cid lid r hr
    rw [lastRowFor_concat] at hr
    rw [List.foldl_append, List.foldl_cons, List.foldl_nil]
    by_cases hk : a.customerId = cid ∧ a.lessonId = lid
    · rw [if_pos hk] at hr
      injection hr with hr
      subst hr
      constructor
      · intro p hp hpc hpl
        exact upsertParticipant_vals _ _ p hp (hpc.trans hk.1.symm)
          (hpl.trans hk.2.symm)
      · obtain ⟨p, hp, h1, h2⟩ := upsertParticipant_present_self
          (rows.foldl upsertParticipant s) a
        exact ⟨p, hp, h1.trans hk.1, h2.trans hk.2⟩
    · rw [if_neg hk] at hr
      obtain ⟨hvals, hex⟩ := ih s cid lid r hr
      exact ⟨upsertParticipant_pres _ a hk _ hvals,
        upsertParticipant_present_pres _ a hex⟩

theorem filterLast_concat {α} (p : α → Bool) (l : List α) (x : α) :
    ((l ++ [x]).filter p).getLast? =
      if p x then some x else (l.filter p).getLast? := by
  rw [List.filter_append]
  by_cases hx : p x
  · rw [if_pos hx, List.filter_cons_of_pos hx, List.filter_nil]
    exact List.getLast?_concat _
  · rw [if_neg hx, List.filter_cons_of_neg hx, List.filter_nil, List.append_nil]

theorem upsertInstructor_vals (s : Store) (a : InstructorEntry) :
    ∀ u ∈ (upsertInstructor s a).users, u.email = a.email →
      u.firstName = (splitFirstRest a.name).1 ∧
      u.lastName = (splitFirstRest a.name).2 := by
  intro u hu hue
  unfold upsertInstructor at hu
  split at hu
  · rcases List.mem_map.1 hu with ⟨q, hq, rfl⟩
    by_cases hqk : q.email = a.email
    · rw [if_pos hqk]
      exact ⟨rfl, rfl⟩
    · rw [if_neg hqk] at hue ⊢
      exact absurd hue hqk
  · rename_i hany
    rcases List.mem_append.1 hu with hu | hu
    · simp only [List.any_eq_true, decide_eq_true_eq] at hany
      exact absurd ⟨u, hu, hue⟩ hany
    · simp only [List.mem_singleton] at hu
      subst hu
      exact ⟨rfl, rfl⟩

theorem upsertInstructor_pres (s : Store) (a : InstructorEntry) {k : String}
    (hk : a.email ≠ k) (V : UserRec → Prop)
    (hvals : ∀ u ∈ s.users, u.email = k → V u) :
    ∀ u ∈ (upsertInstructor s a).users, u.email = k → V u := by
  intro u hu hue
  unfold upsertInstructor at hu
  split at hu
  · rcases List.mem_map.1 hu with ⟨q, hq, rfl⟩
    by_cases hqk : q.email = a.email
    · rw [if_pos hqk] at hue ⊢
      exact absurd (hqk.symm.trans hue) hk
    · rw [if_neg hqk] at hue ⊢
      exact hvals q hq hue
  · rcases List.mem_append.1 hu with hu | hu
    · exact hvals u hu hue
    · simp only [List.mem_singleton] at hu
      subst hu
      exact absurd hue hk

/-- The trainer stage: every user record matching an e-mail carries the
name split of the last instructor entry with that e-mail, and the e-mail
is present afterwards. -/
theorem instrStage_spec (entries : List InstructorEntry) :
    ∀ (s : Store) (k : String) (e : InstructorEntry),
      (entries.filter (fun x => x.email = k)).getLast? = some e →
      ((∀ u ∈ (entries.foldl upsertInstructor s).users, u.email = k →
          u.firstName = (splitFirstRest e.name).1 ∧
          u.lastName = (splitFirstRest e.name).2) ∧
       (∃ u ∈ (entries.foldl upsertInstructor s).users, u.email = k)) := by
  induction entries using List.reverseRecOn with
  | nil => intro s k e he; simp at he
  | append_singleton entries a ih =>
    intro s k e he
    rw [filterLast_concat] at he
    rw [List.foldl_append, List.foldl_cons, List.foldl_nil]
    by_cases hk : a.email = k
    · rw [if_pos (by simpa using hk)] at he
      injection he with he
      subst he
      constructor
      · intro u hu hue
        exact upsertInstructor_vals _ a u hu (hue.trans hk.symm)
      · obtain ⟨u, hu, h1⟩ := upsertInstructor_email_present
          (entries.foldl upsertInstructor s) a
        exact ⟨u, hu, h1.trans hk⟩
    · rw [if_neg (by simpa using hk)] at he
      obtain ⟨hvals, hex⟩ := ih s k e he
      exact ⟨upsertInstructor_pres _ a hk _ hvals,
        upsertInstructor_email_pres hex a⟩

theorem upsertCustomer_vals (s : Store) (a : CustomerEntry) :
    ∀ c ∈ (upsertCustomer s a).customers, c.id = a.id →
      c.firstName = (splitFirstRest a.name).1 ∧
      c.lastName = (splitFirstRest a.name).2 ∧
      c.email = a.id ++ "@imported.local" := by
  intro c hc hcid
  unfold upsertCustomer at hc
  split at hc
  · rcases List.mem_map.1 hc with ⟨q, hq, rfl⟩
    by_cases hqk : q.id = a.id
    · rw [if_pos hqk]
      exact ⟨rfl, rfl, rfl⟩
    · rw [if_neg hqk] at hcid ⊢
      exact absurd hcid hqk
  · rename_i hany
    rcases List.mem_append.1 hc with hc | hc
    · simp only [List.any_eq_true, decide_eq_true_eq] at hany
      exact absurd ⟨c, hc, hcid⟩ hany
    · simp only [List.mem_singleton] at hc
      subst hc
      exact ⟨rfl, rfl, rfl⟩

theorem upsertCustomer_pres (s : Store) (a : CustomerEntry) {k : String}
    (hk : a.id ≠ k) (V : CustomerRec → Prop)
    (hvals : ∀ c ∈ s.customers, c.id = k → V c) :
    ∀ c ∈ (upsertCustomer s a).customers, c.id = k → V c := by
  intro c hc hcid
  unfold upsertCustomer at hc
  split at hc
  · rcases List.mem_map.1 hc with ⟨q, hq, rfl⟩
    by_cases hqk : q.id = a.id
    · rw [if_pos hqk] at hcid ⊢
      exact absurd (hqk.symm.trans hcid) hk
    · rw [if_neg hqk] at hcid ⊢
      exact hvals q hq hcid
  · rcases List.mem_append.1 hc with hc | hc
    · exact hvals c hc hcid
    · simp only [List.mem_singleton] at hc
      subst hc
      exact absurd hcid hk

theorem upsertCustomer_present_self (s : Store) (a : CustomerEntry) :
    ∃ c ∈ (upsertCustomer s a).customers, c.id = a.id := by
  unfold upsertCustomer
  split
  · rename_i hany
    simp only [List.any_eq_true, decide_eq_true_eq] at hany
    obtain ⟨q, hq, hqk⟩ := hany
    refine ⟨_, List.mem_map_of_mem _ hq, ?_⟩
    rw [if_pos hqk]
    exact hqk
  · exact ⟨_, List.mem_append_right _ (List.mem_singleton_self _), rfl⟩

theorem upsertCustomer_present_pres (s : Store) (a : CustomerEntry) {k : String}
    (h : ∃ c ∈ s.customers, c.id = k) :
    ∃ c ∈ (upsertCustomer s a).customers, c.id = k := by
  obtain ⟨c, hc, hcid⟩ := h
  unfold upsertCustomer
  split
  · refine ⟨_, List.mem_map_of_mem _ hc, ?_⟩
    by_cases hck : c.id = a.id
    · rw [if_pos hck]
      exact hcid
    · rw [if_neg hck]
      exact hcid
  · exact ⟨c, List.mem_append_left _ hc, hcid⟩

/-- The person stage: every customer record matching an id carries the
name split and synthesized e-mail of the last customer entry with that id,
and the id is present afterwards. -/
theorem custStage_spec (entries : List CustomerEntry) :
    ∀ (s : Store) (k : String) (e : CustomerEntry),
      (entries.filter (fun x => x.id = k)).getLast? = some e →
      ((∀ c ∈ (entries.foldl upsertCustomer s).customers, c.id = k →
          c.firstName = (splitFirstRest e.name).1 ∧
          c.lastName = (splitFirstRest e.name).2 ∧
          c.email = e.id ++ "@imported.local") ∧
       (∃ c ∈ (entries.foldl upsertCustomer s).customers, c.id = k)) := by
  induction entries using List.reverseRecOn with
  | nil => intro s k e he; simp at he
  | append_singleton entries a ih =>
    intro s k e he
    rw [filterLast_concat] at he
    rw [List.foldl_append, List.foldl_cons, List.foldl_nil]
    by_cases hk : a.id = k
    · rw [if_pos (by simpa using hk)] at he
      injection he with he
      subst he
      constructor
      · intro c hc hcid
        exact upsertCustomer_vals _ a c hc (hcid.trans hk.symm)
      · obtain ⟨c, hc, h1⟩ := upsertCustomer_present_self
          (entries.foldl upsertCustomer s) a
        exact ⟨c, hc, h1.trans hk⟩
    · rw [if_neg (by simpa using hk)] at he
      obtain ⟨hvals, hex⟩ := ih s k e he
      exact ⟨upsertCustomer_pres _ a hk _ hvals,
        upsertCustomer_present_pres _ a hex⟩

theorem applyLessonUpsert_vals (s : Store) (a : LessonRec) :
    ∀ l ∈ (applyLessonUpsert s a).lessons, l.id = a.id →
      l.lessonType = a.lessonType ∧ l.instructorId = a.instructorId ∧
      l.locationId = a.locationId ∧ l.lessonContent = a.lessonContent ∧
      l.createdAt = a.createdAt := by
  intro l hl hlid
  unfold applyLessonUpsert at hl
  split at hl
  · rcases List.mem_map.1 hl with ⟨q, hq, rfl⟩
    by_cases hqk : q.id = a.id
    · rw [if_pos hqk]
      exact ⟨rfl, rfl, rfl, rfl, rfl⟩
    · rw [if_neg hqk] at hlid ⊢
      exact absurd hlid hqk
  · rename_i hany
    rcases List.mem_append.1 hl with hl | hl
    · simp only [List.any_eq_true, decide_eq_true_eq] at hany
      exact absurd ⟨l, hl, hlid⟩ hany
    · simp only [List.mem_singleton] at hl
      subst hl
      exact ⟨rfl, rfl, rfl, rfl, rfl⟩

theorem applyLessonUpsert_pres (s : Store) (a : LessonRec) {k : String}
    (hk : a.id ≠ k) (V : LessonRec → Prop)
    (hvals : ∀ l ∈ s.lessons, l.id = k → V l) :
    ∀ l ∈ (applyLessonUpsert s a).lessons, l.id = k → V l := by
  intro l hl hlid
  unfold applyLessonUpsert at hl
  split at hl
  · rcases List.mem_map.1 hl with ⟨q, hq, rfl⟩
    by_cases hqk : q.id = a.id
    · rw [if_pos hqk] at hlid ⊢
      exact absurd (hqk.symm.trans hlid) hk
    · rw [if_neg hqk] at hlid ⊢
      exact hvals q hq hlid
  · rcases List.mem_append.1 hl with hl | hl
    · exact hvals l hl hlid
    · simp only [List.mem_singleton] at hl
      subst hl
      exact absurd hlid hk

theorem applyLessonUpsert_present_self (s : Store) (a : LessonRec) :
    ∃ l ∈ (applyLessonUpsert s a).lessons, l.id = a.id := by
  unfold applyLessonUpsert
  split
  · rename_i hany
    simp only [List.any_eq_true, decide_eq_true_eq] at hany
    obtain ⟨q, hq, hqk⟩ := hany
    refine ⟨_, List.mem_map_of_mem _ hq, ?_⟩
    rw [if_pos hqk]
    exact hqk
  · exact ⟨a, List.mem_append_right _ (List.mem_singleton_self _), rfl⟩

theorem applyLessonUpsert_present_pres (s : Store) (a : LessonRec) {k : String}
    (h : ∃ l ∈ s.lessons, l.id = k) :
    ∃ l ∈ (applyLessonUpsert s a).lessons, l.id = k := by
  obtain ⟨l, hl, hlid⟩ := h
  unfold applyLessonUpsert
  split
  · refine ⟨_, List.mem_map_of_mem _ hl, ?_⟩
    by_cases hlk : l.id = a.id
    · rw [if_pos hlk]
      exact hlid
    · rw [if_neg hlk]
      exact hlid
  · exact ⟨l, List.mem_append_left _ hl, hlid⟩

/-- The event stage: every lesson record matching an id carries the
payload of the last upsert with that id, and the id is present
afterwards. -/
theorem lessonStage_spec (payloads : List LessonRec) :
    ∀ (s : Store) (k : String) (e : LessonRec),
      (payloads.filter (fun x => x.id = k)).getLast? = some e →
      ((∀ l ∈ (payloads.foldl applyLessonUpsert s).lessons, l.id = k →
          l.lessonType = e.lessonType ∧ l.instructorId = e.instructorId ∧
          l.locationId = e.locationId ∧ l.lessonContent = e.lessonContent ∧
          l.createdAt = e.createdAt) ∧
       (∃ l ∈ (payloads.foldl applyLessonUpsert s).lessons, l.id = k)) := by
  induction payloads using List.reverseRecOn with
  | nil => intro s k e he; simp at he
  | append_singleton payloads a ih =>
    intro s k e he
    rw [filterLast_concat] at he
    rw [List.foldl_append, List.foldl_cons, List.foldl_nil]
    by_cases hk : a.id = k
    · rw [if_pos (by simpa using hk)] at he
      injection he with he
      subst he
      constructor
      · intro l hl hlid
        exact applyLessonUpsert_vals _ a l hl (hlid.trans hk.symm)
      · obtain ⟨l, hl, h1⟩ := applyLessonUpsert_present_self
          (payloads.foldl applyLessonUpsert s) a
        exact ⟨l, hl, h1.trans hk⟩
    · rw [if_neg (by simpa using hk)] at he
      obtain ⟨hvals, hex⟩ := ih s k e he
      exact ⟨applyLessonUpsert_pres _ a hk _ hvals,
        applyLessonUpsert_present_pres _ a hex⟩

/-! ## Fixpoint lemmas: a second identical run leaves the store unchanged -/

theorem upsertLocation_fix {s : Store} {name : String}
    (h : ∃ l ∈ s.locations, l.name = name) : upsertLocation s name = s := by
  unfold upsertLocation
  obtain ⟨l, hl, hlk⟩ := h
  rw [if_pos (List.any_eq_true.2 ⟨l, hl, decide_eq_true hlk⟩)]

theorem foldl_upsertLocation_fix {s : Store} {names : List String}
    (h : ∀ n ∈ names, ∃ l ∈ s.locations, l.name = n) :
    names.foldl upsertLocation s = s := by
  induction names with
  | nil => rfl
  | cons n ns ih =>
    rw [List.foldl_cons, upsertLocation_fix (h n (by simp))]
    exact ih (fun m hm => h m (by simp [hm]))

theorem upsertInstructor_fix {s : Store} {a : InstructorEntry}
    (h1 : ∃ u ∈ s.users, u.email = a.email)
    (h2 : ∀ u ∈ s.users, u.email = a.email →
      u.firstName = (splitFirstRest a.name).1 ∧
      u.lastName = (splitFirstRest a.name).2) :
    upsertInstructor s a = s := by
  unfold upsertInstructor
  obtain ⟨u0, hu0, hu0e⟩ := h1
  rw [if_pos (List.any_eq_true.2 ⟨u0, hu0, decide_eq_true hu0e⟩)]
  rw [map_eq_self_of (fun u hu => ?_)]
  by_cases hue : u.email = a.email
  · rw [if_pos hue]
    obtain ⟨e1, e2⟩ := h2 u hu hue
    cases u
    simp_all
  · rw [if_neg hue]

theorem foldl_upsertInstructor_fix {s : Store} {entries : List InstructorEntry}
    (h : ∀ a ∈ entries,
      (∃ u ∈ s.users, u.email = a.email) ∧
      (∀ u ∈ s.users, u.email = a.email →
        u.firstName = (splitFirstRest a.name).1 ∧
        u.lastName = (splitFirstRest a.name).2)) :
    entries.foldl upsertInstructor s = s := by
  induction entries with
  | nil => rfl
  | cons a as ih =>
    rw [List.foldl_cons, upsertInstructor_fix (h a (by simp)).1 (h a (by simp)).2]
    exact ih (fun b hb => h b (by simp [hb]))

theorem upsertCustomer_fix {s : Store} {a : CustomerEntry}
    (h1 : ∃ c ∈ s.customers, c.id = a.id)
    (h2 : ∀ c ∈ s.customers, c.id = a.id →
      c.firstName = (splitFirstRest a.name).1 ∧
      c.lastName = (splitFirstRest a.name).2 ∧
      c.email = a.id ++ "@imported.local") :
    upsertCustomer s a = s := by
  unfold upsertCustomer
  obtain ⟨c0, hc0, hc0e⟩ := h1
  rw [if_pos (List.any_eq_true.2 ⟨c0, hc0, decide_eq_true hc0e⟩)]
  rw [map_eq_self_of (fun c hc => ?_)]
  by_cases hce : c.id = a.id
  · rw [if_pos hce]
    obtain ⟨e1, e2, e3⟩ := h2 c hc hce
    cases c
    simp_all
  · rw [if_neg hce]

theorem foldl_upsertCustomer_fix {s : Store} {entries : List CustomerEntry}
    (h : ∀ a ∈ entries,
      (∃ c ∈ s.customers, c.id = a.id) ∧
      (∀ c ∈ s.customers, c.id = a.id →
        c.firstName = (splitFirstRest a.name).1 ∧
        c.lastName = (splitFirstRest a.name).2 ∧
        c.email = a.id ++ "@imported.local")) :
    entries.foldl upsertCustomer s = s := by
  induction entries with
  | nil => rfl
  | cons a as ih =>
    rw [List.foldl_cons, upsertCustomer_fix (h a (by simp)).1 (h a (by simp)).2]
    exact ih (fun b hb => h b (by simp [hb]))

theorem applyLessonUpsert_fix {s : Store} {a : LessonRec}
    (h1 : ∃ l ∈ s.lessons, l.id = a.id)
    (h2 : ∀ l ∈ s.lessons, l.id = a.id →
      l.lessonType = a.lessonType ∧ l.instructorId = a.instructorId ∧
      l.locationId = a.locationId ∧ l.lessonContent = a.lessonContent ∧
      l.createdAt = a.createdAt) :
    applyLessonUpsert s a = s := by
  unfold applyLessonUpsert
  obtain ⟨l0, hl0, hl0e⟩ := h1
  rw [if_pos (List.any_eq_true.2 ⟨l0, hl0, decide_eq_true hl0e⟩)]
  rw [map_eq_self_of (fun l hl => ?_)]
  by_cases hle : l.id = a.id
  · rw [if_pos hle]
    obtain ⟨e1, e2, e3, e4, e5⟩ := h2 l hl hle
    cases l
    simp_all
  · rw [if_neg hle]

theorem foldl_applyLessonUpsert_fix {s : Store} {payloads : List LessonRec}
    (h : ∀ a ∈ payloads,
      (∃ l ∈ s.lessons, l.id = a.id) ∧
      (∀ l ∈ s.lessons, l.id = a.id →
        l.lessonType = a.lessonType ∧ l.instructorId = a.instructorId ∧
        l.locationId = a.locationId ∧ l.lessonContent = a.lessonContent ∧
        l.createdAt = a.createdAt)) :
    payloads.foldl applyLessonUpsert s = s := by
  induction payloads with
  | nil => rfl
  | cons a as ih =>
    rw [List.foldl_cons, applyLessonUpsert_fix (h a (by simp)).1 (h a (by simp)).2]
    exact ih (fun b hb => h b (by simp [hb]))

theorem lastRowFor_cons (a : ValidRow) (rest : List ValidRow) (cid lid : String) :
    lastRowFor (a :: rest) cid lid =
      if a.customerId = cid ∧ a.lessonId = lid then
        some ((lastRowFor rest cid lid).getD a)
      else lastRowFor rest cid lid := by
  unfold lastRowFor
  rw [List.filter_cons]
  by_cases ha : a.customerId = cid ∧ a.lessonId = lid
  · rw [if_pos ha, if_pos (decide_eq_true ha), List.getLast?_cons]
  · rw [if_neg ha, if_neg (by simpa using ha)]

/-- When every row's key is already present, the participant stage is a
pure record-level map (the last row for each key wins) and allocates no
new identifiers. -/
theorem foldl_upsertParticipant_all_present (rows : List ValidRow) :
    ∀ (s : Store),
      (∀ r ∈ rows, ∃ p ∈ s.participants,
        p.customerId = r.customerId ∧ p.lessonId = r.lessonId) →
      (rows.foldl upsertParticipant s).participants =
        s.participants.map (fun p =>
          match lastRowFor rows p.customerId p.lessonId with
          | some r =>
            { p with
                customerSymptoms := strOrNull r.customerSymptoms,
                customerImprovements := noteOf r,
                status := "attended" }
          | none => p) ∧
      (rows.foldl upsertParticipant s).nextId = s.nextId := by
  induction rows with
  | nil =>
    intro s h
    constructor
    · rw [List.foldl_nil]
      refine (map_eq_self_of (fun p _ => ?_)).symm
      simp [lastRowFor]
    · rfl
  | cons a rest ih =>
    intro s h
    rw [List.foldl_cons]
    obtain ⟨p0, hp0, hp0k⟩ := h a (by simp)
    have hbranch : (s.participants.any fun p =>
        decide (p.customerId = a.customerId ∧ p.lessonId = a.lessonId)) = true :=
      List.any_eq_true.2 ⟨p0, hp0, decide_eq_true hp0k⟩
    have hupd : upsertParticipant s a =
        { s with participants := s.participants.map (fun p =>
            if p.customerId = a.customerId ∧ p.lessonId = a.lessonId then
              { p with
                  customerSymptoms := strOrNull a.customerSymptoms,
                  customerImprovements := noteOf a,
                  status := "attended" }
            else p) } := by
      unfold upsertParticipant
      rw [if_pos hbranch]
    rw [hupd]
    have hrest : ∀ r ∈ rest, ∃ p ∈ ({ s with participants := s.participants.map (fun p =>
        if p.customerId = a.customerId ∧ p.lessonId = a.lessonId then
          { p with
              customerSymptoms := strOrNull a.customerSymptoms,
              customerImprovements := noteOf a,
              status := "attended" }
        else p) } : Store).participants,
        p.customerId = r.customerId ∧ p.lessonId = r.lessonId := by
      intro r hr
      obtain ⟨p, hp, hpk⟩ := h r (by simp [hr])
      refine ⟨_, List.mem_map_of_mem _ hp, ?_⟩
      by_cases hpa : p.customerId = a.customerId ∧ p.lessonId = a.lessonId
      · rw [if_pos hpa]
        exact hpk
      · rw [if_neg hpa]
        exact hpk
    obtain ⟨hpart, hnext⟩ := ih _ hrest
    refine ⟨?_, hnext⟩
    rw [hpart]
    dsimp only
    rw [List.map_map]
    refine List.map_congr_left (fun p _ => ?_)
    simp only [Function.comp]
    by_cases hpa : p.customerId = a.customerId ∧ p.lessonId = a.lessonId
    · rw [if_pos hpa]
      dsimp only
      rw [lastRowFor_cons, if_pos ⟨hpa.1.symm, hpa.2.symm⟩]
      cases hrl : lastRowFor rest p.customerId p.lessonId with
      | none =>
        simp only [Option.getD_none]
      | some r =>
        simp only [Option.getD_some]
    · rw [if_neg hpa]
      rw [lastRowFor_cons, if_neg (fun hc => hpa ⟨hc.1.symm, hc.2.symm⟩)]

/-! ## Pre-existing customer records under the person stage -/

theorem upsertCustomer_mem_nomatch {s : Store} {a : CustomerEntry} {c : CustomerRec}
    (h : a.id ≠ c.id) (hc : c ∈ s.customers) : c ∈ (upsertCustomer s a).customers := by
  unfold upsertCustomer
  split
  · refine List.mem_map.2 ⟨c, hc, ?_⟩
    rw [if_neg (fun hcc => h hcc.symm)]
  · exact List.mem_append_left _ hc

theorem upsertCustomer_mem_match {s : Store} {a : CustomerEntry} {c : CustomerRec}
    (h : c.id = a.id) (hc : c ∈ s.customers) :
    { c with firstName := (splitFirstRest a.name).1,
             lastName := (splitFirstRest a.name).2,
             email := c.id ++ "@imported.local" } ∈ (upsertCustomer s a).customers := by
  unfold upsertCustomer
  rw [if_pos (List.any_eq_true.2 ⟨c, hc, decide_eq_true h⟩)]
  refine List.mem_map.2 ⟨c, hc, ?_⟩
  rw [if_pos h, h]

theorem foldl_upsertCustomer_nomatch {entries : List CustomerEntry} {c : CustomerRec}
    (h : ∀ e ∈ entries, e.id ≠ c.id) :
    ∀ {s : Store}, c ∈ s.customers → c ∈ (entries.foldl upsertCustomer s).customers := by
  induction entries with
  | nil => intro s hc; exact hc
  | cons a as ih =>
    intro s hc
    rw [List.foldl_cons]
    exact ih (fun e he => h e (by simp [he]))
      (upsertCustomer_mem_nomatch (h a (by simp)) hc)

/-- The person stage, seen from a pre-existing customer record: when some
entry carries its id, exactly the name fields and the synthesized e-mail
are rewritten; otherwise the record is untouched.  Either way the record
is never removed. -/
theorem foldl_upsertCustomer_mem (entries : List CustomerEntry)
    (hnd : (entries.map (·.id)).Nodup) :
    ∀ (s : Store) (c : CustomerRec), c ∈ s.customers →
      (match entries.find? (fun e => e.id = c.id) with
       | some entry =>
         { c with firstName := (splitFirstRest entry.name).1,
                  lastName := (splitFirstRest entry.name).2,
                  email := c.id ++ "@imported.local" } ∈
           (entries.foldl upsertCustomer s).customers
       | none => c ∈ (entries.foldl upsertCustomer s).customers) := by
  induction entries with
  | nil => intro s c hc; exact hc
  | cons a as ih =>
    simp only [List.map_cons, List.nodup_cons] at hnd
    intro s c hc
    rw [List.foldl_cons]
    by_cases hk : a.id = c.id
    · rw [@List.find?_cons_of_pos _ (fun e => decide (e.id = c.id)) a as
        (decide_eq_true hk)]
      have hmem := upsertCustomer_mem_match hk.symm hc
      refine foldl_upsertCustomer_nomatch (fun e he => ?_) hmem
      intro hec
      have hec' : e.id = c.id := hec
      exact hnd.1 ((hec'.trans hk.symm) ▸ List.mem_map_of_mem (fun x => x.id) he)
    · rw [@List.find?_cons_of_neg _ (fun e => decide (e.id = c.id)) a as
        (by simpa using hk)]
      exact ih hnd.2 _ c (upsertCustomer_mem_nomatch hk hc)

theorem customers_lookup_eq_find (m : List (String × CustomerEntry))
    (hkey : ∀ p ∈ m, p.2.id = p.1) (k : String) :
    m.lookup k = (m.map Prod.snd).find? (fun e => e.id = k) := by
  induction m with
  | nil => rfl
  | cons p ps ih =>
    obtain ⟨k0, e⟩ := p
    have hp : e.id = k0 := hkey (k0, e) (by simp)
    rw [List.map_cons]
    by_cases hk : k = k0
    · have h1 : List.lookup k ((k0, e) :: ps) = some e := by
        simp [List.lookup, beq_iff_eq, hk]
      rw [h1, @List.find?_cons_of_pos _ (fun x => decide (x.id = k)) e
        (ps.map Prod.snd) (decide_eq_true (hp.trans hk.symm))]
    · have h1 : List.lookup k ((k0, e) :: ps) = List.lookup k ps := by
        simp [List.lookup, beq_eq_false_iff_ne.2 hk]
      rw [h1, @List.find?_cons_of_neg _ (fun x => decide (x.id = k)) e
        (ps.map Prod.snd) (by
          simp only [decide_eq_true_eq]
          intro hc
          exact hk (hc.symm.trans hp))]
      exact ih (fun q hq => hkey q (by simp [hq]))

/-! ## Claim theorems -/

/-- C5 (date parsing policy): for every input string, if the trimmed value
parses as a positive number `n`, `parseLessonDate` returns the timestamp
1899-12-30T00:00:00 UTC plus `n * 86400` seconds; otherwise it returns the
general calendar-string parse of the trimmed value (which is `null` when
that fails); an all-whitespace value is `null` outright.  Consequently a
spreadsheet serial value and a calendar string denoting the same day
produce the same stored timestamp. -/
theorem claim5_date_parsing_policy (env : JsEnv) (s c : String) (n : Int) :
    (env.toNumber (jsTrim s) = some n → 0 < n →
      parseLessonDate env s = some (excelEpochMs + n * (24 * 60 * 60 * 1000)))
    ∧ ((jsTrim s) ≠ "" → env.toNumber (jsTrim s) = some n → ¬ 0 < n →
      parseLessonDate env s = env.parseDate (jsTrim s))
    ∧ ((jsTrim s) ≠ "" → env.toNumber (jsTrim s) = none →
      parseLessonDate env s = env.parseDate (jsTrim s))
    ∧ ((jsTrim s) = "" → parseLessonDate env s = none)
    ∧ (env.toNumber (jsTrim s) = some n → 0 < n → env.toNumber (jsTrim c) = none →
      (jsTrim c) ≠ "" →
      env.parseDate (jsTrim c) = some (excelEpochMs + n * (24 * 60 * 60 * 1000)) →
      parseLessonDate env c = parseLessonDate env s) := by
  refine ⟨?_, ?_, ?_, ?_, ?_⟩
  · intro hn hpos
    unfold parseLessonDate
    by_cases hs : (jsTrim s) = ""
    · rw [hs] at hn
      rw [env.toNumber_empty] at hn
      injection hn with hn
      rw [← hn] at hpos
      exact absurd hpos (by norm_num)
    · rw [if_neg hs, hn]
      dsimp only
      rw [if_pos hpos]
  · intro hs hn hpos
    unfold parseLessonDate
    rw [if_neg hs, hn]
    dsimp only
    rw [if_neg hpos]
  · intro hs hn
    unfold parseLessonDate
    rw [if_neg hs, hn]
  · intro hs
    unfold parseLessonDate
    rw [if_pos hs]
  · intro hn hpos hc hcne hcparse
    have h1 : parseLessonDate env s = some (excelEpochMs + n * (24 * 60 * 60 * 1000)) := by
      unfold parseLessonDate
      by_cases hs : (jsTrim s) = ""
      · rw [hs] at hn
        rw [env.toNumber_empty] at hn
        injection hn with hn
        rw [← hn] at hpos
        exact absurd hpos (by norm_num)
      · rw [if_neg hs, hn]
        dsimp only
        rw [if_pos hpos]
    have h2 : parseLessonDate env c = some (excelEpochMs + n * (24 * 60 * 60 * 1000)) := by
      unfold parseLessonDate
      rw [if_neg hcne, hc, hcparse]
    rw [h1, h2]

/-- Witness for C5: serial `"45296"` and the calendar string `"2024-01-05"`
denote the same day and produce the same stored timestamp. -/
theorem claim5_witness :
    demoEnv.toNumber ((jsTrim "45296")) = some 45296 ∧ (0 : Int) < 45296 ∧
    demoEnv.toNumber ((jsTrim "2024-01-05")) = none ∧
    demoEnv.parseDate ((jsTrim "2024-01-05")) =
      some (excelEpochMs + 45296 * (24 * 60 * 60 * 1000)) ∧
    parseLessonDate demoEnv "45296" =
      some (excelEpochMs + 45296 * (24 * 60 * 60 * 1000)) ∧
    parseLessonDate demoEnv "2024-01-05" = parseLessonDate demoEnv "45296" := by
  have h := claim5_date_parsing_policy demoEnv "45296" "2024-01-05" 45296
  refine ⟨by decide, by decide, by decide, by decide, ?_, ?_⟩
  · exact h.1 (by decide) (by decide)
  · exact h.2.2.2.2 (by decide) (by decide) (by decide) (by decide) (by decide)

theorem rowOk_false_iff (env : JsEnv) (raw : RawRow) :
    rowOk env raw = false ↔
      (mandatoryCellMissing raw ∨
       parseLessonDate env (rowGet raw "lesson date") = none) := by
  by_cases hm : mandatoryCellMissing raw
  · have hpr : parseRow env raw = .error "Missing required fields" := by
      unfold parseRow
      dsimp only
      rw [if_pos (by exact hm)]
    simp [rowOk, hpr, hm]
  · cases hp : parseLessonDate env (rowGet raw "lesson date") with
    | none =>
      have hpr : parseRow env raw = .error "Invalid lesson date format" := by
        unfold parseRow
        dsimp only
        rw [if_neg (by exact hm), hp]
      simp [rowOk, hpr, hm, hp]
    | some d =>
      have hpr : ∃ v, parseRow env raw = .ok v := by
        unfold parseRow
        dsimp only
        rw [if_neg (by exact hm), hp]
        exact ⟨_, rfl⟩
      obtain ⟨v, hv⟩ := hpr
      simp [rowOk, hv, hm, hp]

theorem length_filterMap_parseRow (env : JsEnv) (data : List RawRow) :
    (data.filterMap (fun raw => (parseRow env raw).toOption)).length =
      data.countP (rowOk env) := by
  induction data with
  | nil => rfl
  | cons raw rest ih =>
    rw [List.filterMap_cons, List.countP_cons]
    cases h : parseRow env raw with
    | error r =>
      have hb : rowOk env raw = false := by simp [rowOk, h]
      simp [h, Except.toOption, hb]
      exact ih
    | ok r =>
      have hb : rowOk env raw = true := by simp [rowOk, h]
      simp [h, Except.toOption, hb]
      exact ih

theorem runImport_counts (env : JsEnv) (s : Store) (data : List RawRow)
    (hne : data ≠ []) (hhdr : requiredMissing data = []) :
    (runImport env s data).resp.errorCount = (validateLoop env data).errorCount ∧
    (runImport env s data).resp.processedCount =
      (validateLoop env data).validRows.length := by
  rw [runImport_eq env s data hne hhdr]
  dsimp only
  split
  · exact ⟨rfl, rfl⟩
  · rename_i h
    exact ⟨by dsimp only; omega, rfl⟩

/-- C1 (row isolation): after the header gate passes, a data row at
0-based index `i` is rejected exactly when one of the five mandatory cells
is empty after trimming or the date cell fails parsing; each rejected row
is recorded as `"Row (i+2): reason"`, without stopping the other rows; the
report's rejected count is the number of rejected rows and its processed
count the number of valid rows, and both counts are invariant under
reordering of the data rows. -/
theorem claim1_row_isolation (env : JsEnv) (s : Store) (data : List RawRow)
    (hne : data ≠ []) (hhdr : requiredMissing data = []) :
    (∀ i, (hi : i < data.length) →
      (rowOk env (data.get ⟨i, hi⟩) = false ↔
        (mandatoryCellMissing (data.get ⟨i, hi⟩) ∨
         parseLessonDate env (rowGet (data.get ⟨i, hi⟩) "lesson date") = none)))
    ∧ (validateLoop env data).rowErrors = data.enum.filterMap
        (fun p => (rowReason env p.2).map (rowErrorMsg (p.1 + 2)))
    ∧ (∀ i, (hi : i < data.length) → rowOk env (data.get ⟨i, hi⟩) = false →
        rowErrorMsg (i + 2) ((rowReason env (data.get ⟨i, hi⟩)).getD "")
          ∈ (validateLoop env data).rowErrors)
    ∧ (runImport env s data).resp.errorCount =
        data.countP (fun raw => !(rowOk env raw))
    ∧ (runImport env s data).resp.processedCount = data.countP (rowOk env)
    ∧ (∀ data' : List RawRow, data.Perm data' → data' ≠ [] →
        requiredMissing data' = [] →
        (runImport env s data').resp.errorCount =
          (runImport env s data).resp.errorCount ∧
        (runImport env s data').resp.processedCount =
          (runImport env s data).resp.processedCount) := by
  refine ⟨fun i hi => rowOk_false_iff env _, ?_, ?_, ?_, ?_, ?_⟩
  · rw [validateLoop_spec]
  · intro i hi hbad
    rw [validateLoop_spec]
    dsimp only
    have hmem : (i, data.get ⟨i, hi⟩) ∈ data.enum := by
      have h1 : i < data.enum.length := by
        rw [List.enum_length]
        exact hi
      have h2 := List.get_mem data.enum i h1
      have h3 : data.enum.get ⟨i, h1⟩ = (i, data.get ⟨i, hi⟩) := by
        simp [List.getElem_enum, List.get_eq_getElem]
      rwa [h3] at h2
    refine List.mem_filterMap.2 ⟨(i, data.get ⟨i, hi⟩), hmem, ?_⟩
    unfold rowOk at hbad
    unfold rowReason
    cases h : parseRow env (data.get ⟨i, hi⟩) with
    | error r => simp
    | ok r => rw [h] at hbad; exact absurd hbad (by simp)
  · rw [(runImport_counts env s data hne hhdr).1, validateLoop_spec]
  · rw [(runImport_counts env s data hne hhdr).2, validateLoop_spec]
    exact length_filterMap_parseRow env data
  · intro data' hperm hne' hhdr'
    constructor
    · rw [(runImport_counts env s data hne hhdr).1,
        (runImport_counts env s data' hne' hhdr').1,
        validateLoop_spec, validateLoop_spec]
      exact (hperm.countP_eq _).symm
    · rw [(runImport_counts env s data hne hhdr).2,
        (runImport_counts env s data' hne' hhdr').2,
        validateLoop_spec, validateLoop_spec,
        length_filterMap_parseRow, length_filterMap_parseRow]
      exact (hperm.countP_eq _).symm

/-- Witness for C1: a three-row upload in which exactly the third row is
rejected (empty mandatory `Customer ID` cell), reported as row 4. -/
theorem claim1_witness :
    demoData ≠ [] ∧ requiredMissing demoData = [] ∧
    (runImport demoEnv emptyStore demoData).resp.errorCount = 1 ∧
    (runImport demoEnv emptyStore demoData).resp.processedCount = 2 ∧
    (validateLoop demoEnv demoData).rowErrors = ["Row 4: Missing required fields"] := by
  have h := claim1_row_isolation demoEnv emptyStore demoData
    (by decide) (by decide)
  refine ⟨by decide, by decide, ?_, ?_, ?_⟩
  · rw [h.2.2.2.1]
    decide
  · rw [h.2.2.2.2.1]
    decide
  · rw [h.2.1]
    decide

/-- Counterexample for C6: for an upload whose header row lacks any
`lesson date` alias, the 400 response carries `missingHeaders` together
with the fixed `expectedHeaders` list — which contains `"lesson date"`
itself, a field that was *not* found — so the response does not list "the
fields that were found". -/
theorem claim6_counterexample :
    (runImport demoEnv emptyStore noDateHeaderData).resp.status = 400 ∧
    (runImport demoEnv emptyStore noDateHeaderData).resp.missingHeaders =
      ["lesson date"] ∧
    (runImport demoEnv emptyStore noDateHeaderData).resp.expectedHeaders =
      REQUIRED_HEADERS ∧
    "lesson date" ∈ (runImport demoEnv emptyStore noDateHeaderData).resp.expectedHeaders ∧
    "lesson date" ∉ foundCanonicalFields noDateHeaderData ∧
    (runImport demoEnv emptyStore noDateHeaderData).resp.expectedHeaders ≠
      foundCanonicalFields noDateHeaderData := by
  decide

/-- C6 amended (header gate): if any of the five mandatory canonical
fields (`customer id`, `customer name`, `lesson id`, `lesson date`,
`instructor name` — the spec's `person_id`, `person_name`, `event_id`,
`event_date`, `trainer_name`) is absent after normalization and alias
mapping of the first row's labels, the import aborts with status 400
before any row is processed and before any write occurs, and the response
lists the missing required fields together with the fixed expected-header
list (not the found fields). -/
theorem claim6_header_gate (env : JsEnv) (s : Store) (data : List RawRow)
    (hne : data ≠ [])
    (hmand : ∃ h ∈ ["customer id", "customer name", "lesson id",
      "lesson date", "instructor name"], h ∉ foundCanonicalFields data) :
    requiredMissing data ≠ [] ∧
    (runImport env s data).resp.status = 400 ∧
    (runImport env s data).resp.error = "Import file is missing required headers" ∧
    (∀ h ∈ ["customer id", "customer name", "lesson id", "lesson date",
        "instructor name"], h ∉ foundCanonicalFields data →
      h ∈ (runImport env s data).resp.missingHeaders) ∧
    (runImport env s data).resp.expectedHeaders = REQUIRED_HEADERS ∧
    (runImport env s data).store = s ∧
    (runImport env s data).trace = [] ∧
    (runImport env s data).resp.errors = [] ∧
    (runImport env s data).resp.processedCount = 0 ∧
    (runImport env s data).resp.errorCount = 0 := by
  obtain ⟨h0, hh0, hnf⟩ := hmand
  have hreq : h0 ∈ REQUIRED_HEADERS := by
    fin_cases hh0 <;> decide
  have hmissing : ∀ h ∈ ["customer id", "customer name", "lesson id",
      "lesson date", "instructor name"], h ∉ foundCanonicalFields data →
      h ∈ requiredMissing data := by
    intro h hmem hnotfound
    match data with
    | firstRow :: rest =>
      unfold requiredMissing
      rw [List.mem_filter]
      refine ⟨by fin_cases hmem <;> decide, ?_⟩
      simp only [decide_eq_true_eq, Bool.not_eq_true']
      intro hcont
      exact absurd (by
        unfold foundCanonicalFields
        exact List.mem_of_elem_eq_true hcont) hnotfound
  have hmiss : h0 ∈ requiredMissing data := hmissing h0 hh0 hnf
  have hnemp : requiredMissing data ≠ [] := by
    intro hnil
    rw [hnil] at hmiss
    cases hmiss
  have heq := runImport_headerFail env s data hne hnemp
  refine ⟨hnemp, ?_, ?_, ?_, ?_, ?_, ?_, ?_, ?_, ?_⟩
  · rw [heq]
  · rw [heq]
  · intro h hmem hnotfound
    rw [heq]
    exact hmissing h hmem hnotfound
  · rw [heq]
  · rw [heq]
  · rw [heq]
  · rw [heq]
  · rw [heq]
  · rw [heq]

/-- Witness for C6: the concrete upload without a `lesson date` column. -/
theorem claim6_witness :
    requiredMissing noDateHeaderData ≠ [] ∧
    (runImport demoEnv emptyStore noDateHeaderData).resp.status = 400 ∧
    (runImport demoEnv emptyStore noDateHeaderData).store = emptyStore ∧
    (runImport demoEnv emptyStore noDateHeaderData).trace = [] := by
  have h := claim6_header_gate demoEnv emptyStore noDateHeaderData
    (by decide) ⟨"lesson date", by decide, by decide⟩
  exact ⟨h.1, h.2.1, h.2.2.2.2.2.1, h.2.2.2.2.2.2.1⟩

/-- Counterexample for C7: an upload whose only data row is rejected (all
rows rejected) is still answered with the partial-success status 207, not
reported as a failure (400). -/
theorem claim7_counterexample :
    (validateLoop demoEnv allRejectedData).validRows.length = 0 ∧
    (runImport demoEnv emptyStore allRejectedData).resp.errorCount = 1 ∧
    (runImport demoEnv emptyStore allRejectedData).resp.processedCount = 0 ∧
    (runImport demoEnv emptyStore allRejectedData).resp.status = 207 ∧
    (runImport demoEnv emptyStore allRejectedData).resp.status ≠ 400 := by
  decide

/-- C7 amended (report statuses): past the structural gates, when no row
is rejected the import responds 200 with `{message, processedCount,
errorCount: 0}`; when the rejected count is nonzero — whether or not any
row was accepted, including the all-rejected case — it responds 207 with
at most 10 error strings; only the structural gates answer 400. -/
theorem claim7_report_statuses (env : JsEnv) (s : Store) (data : List RawRow)
    (hne : data ≠ []) (hhdr : requiredMissing data = []) :
    ((validateLoop env data).errorCount = 0 →
      (runImport env s data).resp.status = 200 ∧
      (runImport env s data).resp.message = "CSV import completed successfully" ∧
      (runImport env s data).resp.errorCount = 0 ∧
      (runImport env s data).resp.processedCount =
        (validateLoop env data).validRows.length)
    ∧ ((validateLoop env data).errorCount > 0 →
      (runImport env s data).resp.status = 207 ∧
      (runImport env s data).resp.errorCount = (validateLoop env data).errorCount ∧
      (runImport env s data).resp.errors =
        (validateLoop env data).rowErrors.take 10 ∧
      (runImport env s data).resp.errors.length ≤ 10 ∧
      (runImport env s data).resp.processedCount =
        (validateLoop env data).validRows.length)
    ∧ ((runImport env s data).resp.status = 200 ∨
       (runImport env s data).resp.status = 207) := by
  rw [runImport_eq env s data hne hhdr]
  dsimp only
  refine ⟨?_, ?_, ?_⟩
  · intro h0
    rw [if_neg (by omega)]
    exact ⟨rfl, rfl, rfl, rfl⟩
  · intro hpos
    rw [if_pos hpos]
    refine ⟨rfl, rfl, rfl, ?_, rfl⟩
    exact List.length_take_le 10 _
  · by_cases hpos : (validateLoop env data).errorCount > 0
    · rw [if_pos hpos]
      exact Or.inr rfl
    · rw [if_neg hpos]
      exact Or.inl rfl

/-- Witness for C7: the three-row demo upload (one rejected row) answers
207; its fully-valid prefix answers 200. -/
theorem claim7_witness :
    demoData ≠ [] ∧ requiredMissing demoData = [] ∧
    (validateLoop demoEnv demoData).errorCount > 0 ∧
    (runImport demoEnv emptyStore demoData).resp.status = 207 ∧
    (runImport demoEnv emptyStore demoData).resp.errors.length ≤ 10 := by
  have h := claim7_report_statuses demoEnv emptyStore demoData
    (by decide) (by decide)
  have hpos : (validateLoop demoEnv demoData).errorCount > 0 := by decide
  have h2 := h.2.1 hpos
  exact ⟨by decide, by decide, hpos, h2.1, h2.2.2.2.1⟩

/-! ## Trace shape lemmas for the write-order claim -/

theorem isEventTxn_false_of_att {op : Op} (h : isAttendanceTxn op = true) :
    isEventTxn op = false := by
  cases op with
  | txn e args => cases e <;> simp_all [isEventTxn, isAttendanceTxn]
  | readIds e keys => simp [isEventTxn]

theorem dropWhile_all_of {p : Op → Bool} {l : List Op}
    (h : ∀ op ∈ l, p op = true) : l.dropWhile p = [] := by
  induction l with
  | nil => rfl
  | cons a as ih =>
    rw [List.dropWhile_cons, if_pos (h a (by simp))]
    exact ih (fun op hop => h op (by simp [hop]))

theorem dropWhile_append_of {p : Op → Bool} {l : List Op} (r : List Op)
    (h : ∀ op ∈ l, p op = true) :
    (l ++ r).dropWhile p = r.dropWhile p := by
  induction l with
  | nil => rfl
  | cons a as ih =>
    rw [List.cons_append, List.dropWhile_cons, if_pos (h a (by simp))]
    exact ih (fun op hop => h op (by simp [hop]))

theorem takeWhile_append_of {p : Op → Bool} {l : List Op} (r : List Op)
    (h : ∀ op ∈ l, p op = true) :
    (l ++ r).takeWhile p = l ++ r.takeWhile p := by
  induction l with
  | nil => rfl
  | cons a as ih =>
    rw [List.cons_append, List.takeWhile_cons, if_pos (h a (by simp)),
      ih (fun op hop => h op (by simp [hop])), List.cons_append]

/-- If a trace is a prefix without Event transactions, then Event
transactions, then Attendance transactions, no read occurs between the
Event and Attendance parts. -/
theorem readBetween_false_of (P E T : List Op)
    (hP : ∀ op ∈ P, isEventTxn op = false)
    (hE : ∀ op ∈ E, isEventTxn op = true ∧ isAttendanceTxn op = false ∧
      isRead op = false)
    (hT : ∀ op ∈ T, isAttendanceTxn op = true) :
    readBetweenEventAndAttendance (P ++ (E ++ T)) = false := by
  unfold readBetweenEventAndAttendance
  rw [dropWhile_append_of (E ++ T) (fun op hop => by simp [hP op hop])]
  cases E with
  | nil =>
    rw [List.nil_append,
      dropWhile_all_of (fun op hop => by simp [isEventTxn_false_of_att (hT op hop)])]
    rfl
  | cons e E' =>
    rw [List.cons_append, List.dropWhile_cons,
      if_neg (by simp [(hE e (by simp)).1]), List.takeWhile_cons,
      if_pos (by simp [(hE e (by simp)).2.1]),
      takeWhile_append_of T (fun op hop => by simp [(hE op (by simp [hop])).2.1])]
    have hTtake : T.takeWhile (fun op => !(isAttendanceTxn op)) = [] := by
      cases T with
      | nil => rfl
      | cons t ts =>
        rw [List.takeWhile_cons, if_neg (by simp [hT t (by simp)])]
    rw [hTtake, List.append_nil]
    rw [List.any_cons]
    have h1 : isRead e = false := (hE e (by simp)).2.2
    rw [h1]
    simp only [Bool.false_or]
    rw [List.any_eq_false]
    intro op hop
    simp [(hE op (by simp [hop])).2.2]

/-- The reconciler's trace shape has no identifier re-read between the
Event transactions and the Attendance transactions. -/
theorem readBetween_trace_false
    (vch : List (List String)) (names : List String)
    (tch : List (List InstructorEntry)) (emails : List String)
    (pch : List (List CustomerEntry)) (ech : List (List LessonEntry))
    (ach : List (List ValidRow)) (instrIds locIds : String → Option Nat) :
    readBetweenEventAndAttendance
      (vch.map (fun ch => Op.txn .venue (ch.map UpsertArg.loc))
        ++ [Op.readIds .venue names]
        ++ tch.map (fun ch => Op.txn .trainer
            (ch.map (fun i => UpsertArg.user i.email i.name)))
        ++ [Op.readIds .trainer emails]
        ++ pch.map (fun ch => Op.txn .person
            (ch.map (fun c => UpsertArg.cust c.id c.name)))
        ++ ech.map (fun ch => Op.txn .event
            ((ch.map (mkLessonTotal instrIds locIds)).map UpsertArg.lesson))
        ++ ach.map (fun ch => Op.txn .attendance (ch.map UpsertArg.part)))
      = false := by
  have h := readBetween_false_of
    (vch.map (fun ch => Op.txn .venue (ch.map UpsertArg.loc))
      ++ ([Op.readIds .venue names]
      ++ (tch.map (fun ch => Op.txn .trainer
          (ch.map (fun i => UpsertArg.user i.email i.name)))
      ++ ([Op.readIds .trainer emails]
      ++ pch.map (fun ch => Op.txn .person
          (ch.map (fun c => UpsertArg.cust c.id c.name)))))))
    (ech.map (fun ch => Op.txn .event
      ((ch.map (mkLessonTotal instrIds locIds)).map UpsertArg.lesson)))
    (ach.map (fun ch => Op.txn .attendance (ch.map UpsertArg.part)))
    ?_ ?_ ?_
  · simpa [List.append_assoc] using h
  · intro op hop
    simp only [List.mem_append, List.mem_map, List.mem_singleton] at hop
    rcases hop with ⟨ch, _, rfl⟩ | rfl | ⟨ch, _, rfl⟩ | rfl | ⟨ch, _, rfl⟩ <;> rfl
  · intro op hop
    simp only [List.mem_map] at hop
    rcases hop with ⟨ch, _, rfl⟩
    exact ⟨rfl, rfl, rfl⟩
  · intro op hop
    simp only [List.mem_map] at hop
    rcases hop with ⟨ch, _, rfl⟩
    rfl

/-- C4 (amended): for every store and every list of valid rows, the
reconciler issues its writes in strict dependency order — Venue upsert
transactions, one identifier re-read of the venues, Trainer upsert
transactions, one identifier re-read of the trainers, Person upsert
transactions, Event upsert transactions, Attendance upsert transactions —
with every transaction holding at most `batchSize = 50` upserts.  The
spec's further claim that "the same re-read happens after Event before
the Attendance chunk" is false: no identifier re-read is issued between
the Event transactions and the Attendance transactions (the attendance
payloads are built from the already-resolved maps, not from a re-read). -/
theorem claim4_write_order (s : Store) (rows : List ValidRow) :
    (reconcile s rows).2.1 =
        (chunkArray (buildMaps rows).locations batchSize).map
            (fun ch => Op.txn .venue (ch.map UpsertArg.loc))
          ++ [Op.readIds .venue (buildMaps rows).locations]
          ++ (chunkArray ((buildMaps rows).instructors.map Prod.snd) batchSize).map
              (fun ch => Op.txn .trainer
                (ch.map (fun i => UpsertArg.user i.email i.name)))
          ++ [Op.readIds .trainer
                (((buildMaps rows).instructors.map Prod.snd).map (·.email))]
          ++ (chunkArray ((buildMaps rows).customers.map Prod.snd) batchSize).map
              (fun ch => Op.txn .person
                (ch.map (fun c => UpsertArg.cust c.id c.name)))
          ++ (chunkArray ((buildMaps rows).lessons.map Prod.snd) batchSize).map
              (fun ch => Op.txn .event
                ((ch.map (mkLessonTotal
                    (instructorIdByEmail
                      ((((buildMaps rows).instructors.map Prod.snd).foldl upsertInstructor
                        ((buildMaps rows).locations.foldl upsertLocation s)).users)
                      (((buildMaps rows).instructors.map Prod.snd).map (·.email)))
                    (locationIdByName
                      (((buildMaps rows).locations.foldl upsertLocation s).locations)
                      (buildMaps rows).locations))).map UpsertArg.lesson))
          ++ (chunkArray rows batchSize).map
              (fun ch => Op.txn .attendance (ch.map UpsertArg.part)) ∧
    (∀ op ∈ (reconcile s rows).2.1, ∀ e args, op = Op.txn e args →
        args.length ≤ batchSize) ∧
    readBetweenEventAndAttendance (reconcile s rows).2.1 = false := by
  have hspec := reconcile_spec s rows
  dsimp only at hspec
  have htr : (reconcile s rows).2.1 =
      (chunkArray (buildMaps rows).locations batchSize).map
          (fun ch => Op.txn .venue (ch.map UpsertArg.loc))
        ++ [Op.readIds .venue (buildMaps rows).locations]
        ++ (chunkArray ((buildMaps rows).instructors.map Prod.snd) batchSize).map
            (fun ch => Op.txn .trainer
              (ch.map (fun i => UpsertArg.user i.email i.name)))
        ++ [Op.readIds .trainer
              (((buildMaps rows).instructors.map Prod.snd).map (·.email))]
        ++ (chunkArray ((buildMaps rows).customers.map Prod.snd) batchSize).map
            (fun ch => Op.txn .person
              (ch.map (fun c => UpsertArg.cust c.id c.name)))
        ++ (chunkArray ((buildMaps rows).lessons.map Prod.snd) batchSize).map
            (fun ch => Op.txn .event
              ((ch.map (mkLessonTotal
                  (instructorIdByEmail
                    ((((buildMaps rows).instructors.map Prod.snd).foldl upsertInstructor
                      ((buildMaps rows).locations.foldl upsertLocation s)).users)
                    (((buildMaps rows).instructors.map Prod.snd).map (·.email)))
                  (locationIdByName
                    (((buildMaps rows).locations.foldl upsertLocation s).locations)
                    (buildMaps rows).locations))).map UpsertArg.lesson))
        ++ (chunkArray rows batchSize).map
            (fun ch => Op.txn .attendance (ch.map UpsertArg.part)) := by
    rw [hspec]
  refine ⟨htr, ?_, ?_⟩
  · intro op hop e args heq
    subst heq
    rw [htr] at hop
    simp only [List.mem_append, List.mem_map, List.mem_singleton] at hop
    rcases hop with
      ((((((⟨ch, hch, hEqn⟩ | hEqn) | ⟨ch, hch, hEqn⟩) | hEqn) | ⟨ch, hch, hEqn⟩) |
        ⟨ch, hch, hEqn⟩) | ⟨ch, hch, hEqn⟩)
    · injection hEqn with h1 h2
      rw [← h2, List.length_map]
      exact chunkArray_mem_length hch
    · exact absurd hEqn (by simp)
    · injection hEqn with h1 h2
      rw [← h2, List.length_map]
      exact chunkArray_mem_length hch
    · exact absurd hEqn (by simp)
    · injection hEqn with h1 h2
      rw [← h2, List.length_map]
      exact chunkArray_mem_length hch
    · injection hEqn with h1 h2
      rw [← h2, List.length_map, List.length_map]
      exact chunkArray_mem_length hch
    · injection hEqn with h1 h2
      rw [← h2, List.length_map]
      exact chunkArray_mem_length hch
  · rw [htr]
    exact readBetween_trace_false _ _ _ _ _ _ _ _ _

/-- C4 counterexample: on a concrete import the trace contains an Event
transaction and an Attendance transaction, yet no identifier re-read is
issued after the Event transaction and before the Attendance transaction —
refuting the claim that "the same re-read happens after Event before the
Attendance chunk". -/
theorem claim4_counterexample :
    (runImport demoEnv emptyStore demoData).trace.any isEventTxn = true ∧
    (runImport demoEnv emptyStore demoData).trace.any isAttendanceTxn = true ∧
    readBetweenEventAndAttendance
      (runImport demoEnv emptyStore demoData).trace = false := by
  refine ⟨by decide, by decide, by decide⟩

/-! ## Venue membership lemmas for the sentinel claim -/

theorem foldl_resolveStep_loc_super {m : EntityMaps} {x : String}
    (h : x ∈ m.locations) (rows : List ValidRow) :
    x ∈ (rows.foldl resolveStep m).locations := by
  induction rows generalizing m with
  | nil => exact h
  | cons r rs ih =>
    exact ih (by rw [resolveStep_locations]; exact mem_setAdd_of h)

theorem foldl_resolveStep_loc_mem {rows : List ValidRow} {row : ValidRow}
    (h : row ∈ rows) : ∀ m : EntityMaps,
    normalizedLocationOf row ∈ (rows.foldl resolveStep m).locations := by
  induction rows with
  | nil => cases h
  | cons r rs ih =>
    intro m
    rcases List.mem_cons.1 h with rfl | h'
    · exact foldl_resolveStep_loc_super
        (by rw [resolveStep_locations]; exact mem_setAdd_self _ _) rs
    · exact ih h' _

theorem buildMaps_loc_mem {rows : List ValidRow} {row : ValidRow}
    (h : row ∈ rows) : normalizedLocationOf row ∈ (buildMaps rows).locations :=
  foldl_resolveStep_loc_mem h _

/-- Only the Venue stage of the reconciler touches the location table. -/
theorem reconcile_locations (s : Store) (rows : List ValidRow) :
    (reconcile s rows).1.locations =
      ((buildMaps rows).locations.foldl upsertLocation s).locations := by
  rw [reconcile_spec]
  dsimp only
  rw [foldl_proj_const upsertParticipant Store.locations
        (fun s b => (upsertParticipant_frame s b).1),
      foldl_proj_const applyLessonUpsert Store.locations
        (fun s b => (applyLessonUpsert_frame s b).1),
      foldl_proj_const upsertCustomer Store.locations
        (fun s b => (upsertCustomer_frame s b).1),
      foldl_proj_const upsertInstructor Store.locations
        (fun s b => (upsertInstructor_frame s b).1)]

/-- C8 counterexample: on a concrete import whose second valid row has an
empty venue name, the sentinel venue stored (resolved and upserted by
name) is "Default Location"; no venue named "Unspecified" exists, refuting
the claimed sentinel name. -/
theorem claim8_counterexample :
    ((validateLoop demoEnv demoData).validRows.map
        (fun r => jsTrim r.locationName)) = ["Hall A", ""] ∧
    ((runImport demoEnv emptyStore demoData).store.locations.map
        (fun l => l.name)) = ["Hall A", "Default Location"] ∧
    "Unspecified" ∉ ((runImport demoEnv emptyStore demoData).store.locations.map
        (fun l => l.name)) := by
  refine ⟨by decide, by decide, by decide⟩

/-- C8 (amended): for every valid row whose venue (location) name is empty
after trimming, the resolved Venue identity key is the sentinel name
"Default Location" (not "Unspecified"); the sentinel enters the resolved
venue set and is upserted by name like any other venue, so the reconciled
store holds a venue record with that name. -/
theorem claim8_venue_sentinel (s : Store) (rows : List ValidRow) (row : ValidRow)
    (hrow : row ∈ rows) (hempty : jsTrim row.locationName = "") :
    normalizedLocationOf row = "Default Location" ∧
    "Default Location" ∈ (buildMaps rows).locations ∧
    ∃ l ∈ (reconcile s rows).1.locations, l.name = "Default Location" := by
  have h1 : normalizedLocationOf row = "Default Location" := by
    unfold normalizedLocationOf
    rw [if_pos hempty]
  have h2 : "Default Location" ∈ (buildMaps rows).locations := by
    rw [← h1]
    exact buildMaps_loc_mem hrow
  refine ⟨h1, h2, ?_⟩
  rw [reconcile_locations]
  exact foldl_upsertLocation_present _ s _ h2

/-- Witness for the amended C8 theorem at a concrete input. -/
theorem claim8_witness :
    jsTrim ((validateLoop demoEnv demoData).validRows.get
        ⟨1, by decide⟩).locationName = "" ∧
    (normalizedLocationOf ((validateLoop demoEnv demoData).validRows.get
        ⟨1, by decide⟩) = "Default Location" ∧
      "Default Location" ∈
        (buildMaps (validateLoop demoEnv demoData).validRows).locations ∧
      ∃ l ∈ (reconcile emptyStore
          (validateLoop demoEnv demoData).validRows).1.locations,
        l.name = "Default Location") :=
  ⟨by decide, claim8_venue_sentinel emptyStore _ _ (List.get_mem _ _ _) (by decide)⟩

/-! ## Customer-table projection lemmas for the person frame claim -/

theorem upsertCustomer_customers_eq {σ τ : Store}
    (h : σ.customers = τ.customers) (a : CustomerEntry) :
    (upsertCustomer σ a).customers = (upsertCustomer τ a).customers := by
  unfold upsertCustomer
  dsimp only
  rw [h]
  split <;> rfl

theorem foldl_upsertCustomer_customers_eq {σ τ : Store}
    (h : σ.customers = τ.customers) :
    ∀ entries : List CustomerEntry,
      (entries.foldl upsertCustomer σ).customers =
        (entries.foldl upsertCustomer τ).customers := by
  intro entries
  induction entries generalizing σ τ with
  | nil => exact h
  | cons a as ih => exact ih (upsertCustomer_customers_eq h a)

/-- Only the Person stage of the reconciler touches the customer table,
and it reads nothing else of the store. -/
theorem reconcile_customers (s : Store) (rows : List ValidRow) :
    (reconcile s rows).1.customers =
      (((buildMaps rows).customers.map Prod.snd).foldl upsertCustomer s).customers := by
  rw [reconcile_spec]
  dsimp only
  rw [foldl_proj_const upsertParticipant Store.customers
        (fun s b => (upsertParticipant_frame s b).2.2.1),
      foldl_proj_const applyLessonUpsert Store.customers
        (fun s b => (applyLessonUpsert_frame s b).2.2.1)]
  apply foldl_upsertCustomer_customers_eq
  rw [foldl_proj_const upsertInstructor Store.customers
        (fun s b => (upsertInstructor_frame s b).2.1),
      foldl_proj_const upsertLocation Store.customers
        (fun s b => (upsertLocation_frame s b).2.1)]

/-- The pre-existing customer record used by the C9 scenario. -/
def c9Rec : CustomerRec :=
  ⟨"C1", "Old", "Name", "real@example.com", some "123", none, none⟩

/-- C9 counterexample: starting from a store whose customer `C1` has a real
e-mail address, re-importing `C1` rewrites the stored e-mail to the
synthesized `C1@imported.local` value — the contact identifier is NOT left
unchanged by a later encounter (though phone and the rest survive). -/
theorem claim9_counterexample :
    (c9Store.customers.map (fun c => (c.id, c.email))) =
      [("C1", "real@example.com")] ∧
    ((runImport demoEnv c9Store demoData).store.customers.map
        (fun c => (c.id, c.email, c.phone))) =
      [("C1", "C1@imported.local", some "123"),
       ("C2", "C2@imported.local", (none : Option String))] := by
  refine ⟨by decide, by decide⟩

/-- C9 (amended): when a Person (customer) with the same `person_id`
already exists in the store, a later encounter updates exactly the two
name fields split from `person_name` AND the contact identifier, which is
rewritten to the synthesized `id@imported.local` value; phone, address,
the soft-delete marker and the id itself are unchanged, and the record is
never deleted (if the import carries no entry for the id, the record is
untouched). -/
theorem claim9_person_update_frame (s : Store) (rows : List ValidRow)
    (c : CustomerRec) (hc : c ∈ s.customers) :
    ((buildMaps rows).customers.lookup c.id = none →
      c ∈ (reconcile s rows).1.customers) ∧
    (∀ entry, (buildMaps rows).customers.lookup c.id = some entry →
      { c with firstName := (splitFirstRest entry.name).1,
               lastName := (splitFirstRest entry.name).2,
               email := c.id ++ "@imported.local" } ∈
        (reconcile s rows).1.customers) := by
  have hinv := buildMaps_inv rows
  have hnd : (((buildMaps rows).customers.map Prod.snd).map (·.id)).Nodup := by
    rw [List.map_map]
    have h2 : (buildMaps rows).customers.map ((·.id) ∘ Prod.snd) =
        (buildMaps rows).customers.map Prod.fst :=
      List.map_congr_left (fun q hq => hinv.custKey q hq)
    rw [h2]
    exact hinv.custNodup
  have hmem := foldl_upsertCustomer_mem ((buildMaps rows).customers.map Prod.snd)
    hnd s c hc
  have hlk := customers_lookup_eq_find (buildMaps rows).customers hinv.custKey c.id
  constructor
  · intro hnone
    rw [hlk] at hnone
    rw [hnone] at hmem
    rw [reconcile_customers]
    exact hmem
  · intro entry hsome
    rw [hlk] at hsome
    rw [hsome] at hmem
    rw [reconcile_customers]
    exact hmem

/-- Witness for the amended C9 theorem at a concrete input. -/
theorem claim9_witness :
    c9Rec ∈ c9Store.customers ∧
    (((buildMaps (validateLoop demoEnv demoData).validRows).customers.lookup
          c9Rec.id = none →
        c9Rec ∈ (reconcile c9Store
          (validateLoop demoEnv demoData).validRows).1.customers) ∧
      (∀ entry, (buildMaps (validateLoop demoEnv demoData).validRows).customers.lookup
          c9Rec.id = some entry →
        { c9Rec with firstName := (splitFirstRest entry.name).1,
                     lastName := (splitFirstRest entry.name).2,
                     email := c9Rec.id ++ "@imported.local" } ∈
          (reconcile c9Store
            (validateLoop demoEnv demoData).validRows).1.customers)) :=
  ⟨by decide, claim9_person_update_frame c9Store
    (validateLoop demoEnv demoData).validRows c9Rec (by decide)⟩

/-! ## The aliased-away "customer improvements" field -/

theorem lookup_val_mem {l : List (String × String)} {k v : String}
    (h : l.lookup k = some v) : v ∈ l.map Prod.snd := by
  induction l with
  | nil => cases h
  | cons p ps ih =>
    obtain ⟨k0, v0⟩ := p
    rw [List.lookup] at h
    by_cases hk : k = k0
    · rw [(beq_iff_eq.2 hk : (k == k0) = true)] at h
      dsimp only at h
      injection h with h
      subst h
      simp
    · rw [(beq_eq_false_iff_ne.2 hk : (k == k0) = false)] at h
      dsimp only at h
      exact List.mem_cons_of_mem _ (ih h)

/-- No header canonicalizes to `customer improvements`: that label is an
alias key (mapped to `course completion status`), and no alias value
equals it. -/
theorem canonicalHeader_ne_ci (h : String) :
    canonicalHeader h ≠ "customer improvements" := by
  unfold canonicalHeader
  intro hc
  dsimp only at hc
  cases hlk : HEADER_ALIASES.lookup (normalizeHeader h) with
  | some v =>
    rw [hlk] at hc
    dsimp only [Option.getD] at hc
    subst hc
    have hv := lookup_val_mem hlk
    revert hv
    decide
  | none =>
    rw [hlk] at hc
    dsimp only [Option.getD] at hc
    rw [hc] at hlk
    revert hlk
    decide

theorem rowGet_customer_improvements (raw : RawRow) :
    rowGet raw "customer improvements" = "" := by
  unfold rowGet
  have hfm : (raw.filterMap fun kv =>
      if canonicalHeader kv.1 = "customer improvements" then some kv.2 else none)
      = [] := by
    induction raw with
    | nil => rfl
    | cons kv kvs ih =>
      rw [List.filterMap_cons, if_neg (canonicalHeader_ne_ci kv.1), ih]
  rw [hfm]
  rfl

theorem parseRow_ci {env : JsEnv} {raw : RawRow} {r : ValidRow}
    (h : parseRow env raw = .ok r) : r.customerImprovements = "" := by
  unfold parseRow at h
  dsimp only at h
  split at h
  · cases h
  · split at h
    · cases h
    · injection h with h
      subst h
      exact rowGet_customer_improvements raw

theorem validRow_ci {env : JsEnv} {data : List RawRow} {r : ValidRow}
    (h : r ∈ (validateLoop env data).validRows) : r.customerImprovements = "" := by
  rw [validateLoop_spec] at h
  dsimp only at h
  rcases List.mem_filterMap.1 h with ⟨raw, hraw, hok⟩
  cases hp : parseRow env raw with
  | ok a =>
    rw [hp] at hok
    injection hok with hok
    subst hok
    exact parseRow_ci hp
  | error e =>
    rw [hp] at hok
    cases hok

theorem noteOf_eq_strOrNull {r : ValidRow} (h : r.customerImprovements = "") :
    noteOf r = strOrNull r.courseCompletionStatus := by
  by_cases hc : r.courseCompletionStatus = ""
  · simp [noteOf, strOrNull, h, hc]
  · simp [noteOf, strOrNull, hc]

/-- C10 (implicit, confirmed): every Attendance (lessonParticipant) record
written by the import — on create and on update alike — has its status
field set to the constant "attended" regardless of the input file, and its
outcome-note field (`customerImprovements`) equal to the row's
completion-status value when non-empty and `null` otherwise (the
`customer improvements` input field is aliased away to
`course completion status` before validation, so it is always empty on a
valid row and never feeds the note); the last valid row for a given
(person_id, event_id) pair determines the stored note fields, and a record
for that pair is present afterwards. -/
theorem claim10_attendance_invariant (env : JsEnv) (s : Store)
    (data : List RawRow) (cid lid : String) (r : ValidRow)
    (hlast : lastRowFor (validateLoop env data).validRows cid lid = some r) :
    r.customerImprovements = "" ∧
    noteOf r = strOrNull r.courseCompletionStatus ∧
    (∀ p ∈ (reconcile s (validateLoop env data).validRows).1.participants,
        p.customerId = cid → p.lessonId = lid →
          p.status = "attended" ∧
          p.customerImprovements = strOrNull r.courseCompletionStatus) ∧
    (∃ p ∈ (reconcile s (validateLoop env data).validRows).1.participants,
        p.customerId = cid ∧ p.lessonId = lid) := by
  have hmem : r ∈ (validateLoop env data).validRows := by
    unfold lastRowFor at hlast
    exact List.mem_of_mem_filter (List.mem_of_mem_getLast? hlast)
  have hci : r.customerImprovements = "" := validRow_ci hmem
  have hnote : noteOf r = strOrNull r.courseCompletionStatus :=
    noteOf_eq_strOrNull hci
  refine ⟨hci, hnote, ?_, ?_⟩
  · rw [reconcile_spec]
    dsimp only
    intro p hp hpc hpl
    have hv := (partStage_spec _ _ cid lid r hlast).1 p hp hpc hpl
    exact ⟨hv.1, hnote ▸ hv.2.2⟩
  · rw [reconcile_spec]
    dsimp only
    exact (partStage_spec _ _ cid lid r hlast).2

/-- Witness for the C10 theorem at a concrete input. -/
theorem claim10_witness :
    lastRowFor (validateLoop demoEnv demoData).validRows "C1" "E1" =
      some ((validateLoop demoEnv demoData).validRows.get ⟨0, by decide⟩) ∧
    (((validateLoop demoEnv demoData).validRows.get
        ⟨0, by decide⟩).customerImprovements = "" ∧
      noteOf ((validateLoop demoEnv demoData).validRows.get ⟨0, by decide⟩) =
        strOrNull (((validateLoop demoEnv demoData).validRows.get
          ⟨0, by decide⟩).courseCompletionStatus) ∧
      (∀ p ∈ (reconcile emptyStore
          (validateLoop demoEnv demoData).validRows).1.participants,
          p.customerId = "C1" → p.lessonId = "E1" →
            p.status = "attended" ∧
            p.customerImprovements =
              strOrNull (((validateLoop demoEnv demoData).validRows.get
                ⟨0, by decide⟩).courseCompletionStatus)) ∧
      (∃ p ∈ (reconcile emptyStore
          (validateLoop demoEnv demoData).validRows).1.participants,
          p.customerId = "C1" ∧ p.lessonId = "E1")) :=
  ⟨by decide, claim10_attendance_invariant demoEnv emptyStore demoData "C1" "E1"
    ((validateLoop demoEnv demoData).validRows.get ⟨0, by decide⟩) (by decide)⟩

/-! ## The lesson map's date/content reconciliation, in closed form -/

theorem updateLessonEntry_lessonDate (e : LessonEntry) (row : ValidRow) :
    (updateLessonEntry e row).lessonDate =
      min e.lessonDate row.parsedLessonDate := by
  unfold updateLessonEntry
  dsimp only
  by_cases hd : row.parsedLessonDate < e.lessonDate
  · rw [if_pos hd]
    dsimp only
    split
    · dsimp only
      omega
    · dsimp only
      omega
  · rw [if_neg hd]
    split
    · dsimp only
      omega
    · omega

theorem updateLessonEntry_lessonContent (e : LessonEntry) (row : ValidRow) :
    (updateLessonEntry e row).lessonContent =
      if e.lessonContent = "" ∧ row.lessonContent ≠ "" then row.lessonContent
      else e.lessonContent := by
  unfold updateLessonEntry
  dsimp only
  by_cases hd : row.parsedLessonDate < e.lessonDate
  · rw [if_pos hd]
    dsimp only
    by_cases hc : e.lessonContent = "" ∧ row.lessonContent ≠ ""
    · rw [if_pos hc, if_pos hc]
    · rw [if_neg hc, if_neg hc]
  · rw [if_neg hd]
    by_cases hc : e.lessonContent = "" ∧ row.lessonContent ≠ ""
    · rw [if_pos hc, if_pos hc]
    · rw [if_neg hc, if_neg hc]

theorem min?_concat (l : List Int) (x : Int) :
    (l ++ [x]).min? =
      some (match l.min? with | none => x | some m => min m x) := by
  cases l with
  | nil => rfl
  | cons a as =>
    show some ((as ++ [x]).foldl min a) = some (min (as.foldl min a) x)
    rw [List.foldl_append]
    rfl

theorem earliestDateFor_concat_eq (rows : List ValidRow) (a : ValidRow)
    {k : String} (hk : a.lessonId = k) :
    earliestDateFor (rows ++ [a]) k =
      some (match earliestDateFor rows k with
        | none => a.parsedLessonDate
        | some d => min d a.parsedLessonDate) := by
  unfold earliestDateFor
  rw [List.filter_append, List.filter_cons_of_pos (by simp [hk]), List.filter_nil,
    List.map_append]
  simp only [List.map_cons, List.map_nil]
  rw [min?_concat]

theorem earliestDateFor_concat_ne (rows : List ValidRow) (a : ValidRow)
    {k : String} (hk : ¬ a.lessonId = k) :
    earliestDateFor (rows ++ [a]) k = earliestDateFor rows k := by
  unfold earliestDateFor
  rw [List.filter_append, List.filter_cons_of_neg (by simp [hk]), List.filter_nil,
    List.append_nil]

theorem firstContentFor_empty_iff (rows : List ValidRow) (k : String) :
    firstContentFor rows k = "" ↔
      rows.filter (fun r => r.lessonId = k ∧ r.lessonContent ≠ "") = [] := by
  unfold firstContentFor
  cases hf : rows.filter (fun r => r.lessonId = k ∧ r.lessonContent ≠ "") with
  | nil => simp
  | cons r rs =>
    have hr : r ∈ rows.filter (fun x => x.lessonId = k ∧ x.lessonContent ≠ "") := by
      rw [hf]
      exact List.mem_cons_self _ _
    have hpr := (List.mem_filter.1 hr).2
    simp only [decide_eq_true_eq] at hpr
    constructor
    · intro hcon
      exact absurd hcon hpr.2
    · intro hcon
      cases hcon

theorem firstContentFor_concat_eq (rows : List ValidRow) (a : ValidRow)
    {k : String} (hk : a.lessonId = k) :
    firstContentFor (rows ++ [a]) k =
      if firstContentFor rows k = "" then
        (if a.lessonContent = "" then "" else a.lessonContent)
      else firstContentFor rows k := by
  by_cases hf : rows.filter (fun r => r.lessonId = k ∧ r.lessonContent ≠ "") = []
  · rw [if_pos ((firstContentFor_empty_iff rows k).2 hf)]
    unfold firstContentFor
    rw [List.filter_append, hf, List.nil_append]
    by_cases hc : a.lessonContent = ""
    · rw [if_pos hc]
      have h0 : [a].filter (fun r => r.lessonId = k ∧ r.lessonContent ≠ "") = [] := by
        rw [List.filter_cons_of_neg (by simp [hc]), List.filter_nil]
      rw [h0]
      rfl
    · rw [if_neg hc]
      have h0 : [a].filter (fun r => r.lessonId = k ∧ r.lessonContent ≠ "") = [a] := by
        rw [List.filter_cons_of_pos (by simp [hk, hc]), List.filter_nil]
      rw [h0]
      rfl
  · rw [if_neg (fun h => hf ((firstContentFor_empty_iff rows k).1 h))]
    unfold firstContentFor
    rw [List.filter_append]
    cases hl : rows.filter (fun r => r.lessonId = k ∧ r.lessonContent ≠ "") with
    | nil => exact absurd hl hf
    | cons r rs => rfl

theorem firstContentFor_concat_ne (rows : List ValidRow) (a : ValidRow)
    {k : String} (hk : ¬ a.lessonId = k) :
    firstContentFor (rows ++ [a]) k = firstContentFor rows k := by
  unfold firstContentFor
  rw [List.filter_append, List.filter_cons_of_neg (by simp [hk]), List.filter_nil,
    List.append_nil]

theorem earliestDateFor_eq_none {rows : List ValidRow} {k : String}
    (h : ∀ r ∈ rows, r.lessonId ≠ k) : earliestDateFor rows k = none := by
  unfold earliestDateFor
  rw [List.filter_eq_nil_iff.2 (by
    intro r hr
    simpa using h r hr)]
  rfl

theorem firstContentFor_eq_empty {rows : List ValidRow} {k : String}
    (h : ∀ r ∈ rows, r.lessonId ≠ k) : firstContentFor rows k = "" := by
  unfold firstContentFor
  rw [List.filter_eq_nil_iff.2 (by
    intro r hr
    simp only [decide_eq_true_eq, not_and]
    intro hk
    exact absurd hk (h r hr))]
  rfl

theorem resolveStep_lesson_keys (m : EntityMaps) (a : ValidRow) :
    (resolveStep m a).lessons.map Prod.fst =
      if m.lessons.any (·.1 = a.lessonId) then m.lessons.map Prod.fst
      else m.lessons.map Prod.fst ++ [a.lessonId] := by
  rw [resolveStep_lessons]
  split
  · rw [List.map_map]
    refine List.map_congr_left (fun p _ => ?_)
    by_cases hpk : p.1 = a.lessonId
    · simp [hpk]
    · simp [hpk]
  · simp

theorem foldl_resolveStep_lesson_keys_super {m : EntityMaps} {x : String}
    (h : x ∈ m.lessons.map Prod.fst) (rows : List ValidRow) :
    x ∈ (rows.foldl resolveStep m).lessons.map Prod.fst := by
  induction rows generalizing m with
  | nil => exact h
  | cons r rs ih =>
    refine ih ?_
    rw [resolveStep_lesson_keys]
    split
    · exact h
    · exact List.mem_append_left _ h

theorem foldl_resolveStep_lesson_key_mem {rows : List ValidRow} {row : ValidRow}
    (h : row ∈ rows) : ∀ m : EntityMaps,
    row.lessonId ∈ (rows.foldl resolveStep m).lessons.map Prod.fst := by
  induction rows with
  | nil => cases h
  | cons r rs ih =>
    intro m
    rcases List.mem_cons.1 h with rfl | h'
    · refine foldl_resolveStep_lesson_keys_super ?_ rs
      rw [resolveStep_lesson_keys]
      split
      · rename_i hany
        simp only [List.any_eq_true, decide_eq_true_eq] at hany
        obtain ⟨q, hq, hqk⟩ := hany
        exact hqk ▸ List.mem_map_of_mem Prod.fst hq
      · simp
    · exact ih h' _

theorem buildMaps_lesson_key_mem {rows : List ValidRow} {row : ValidRow}
    (h : row ∈ rows) : row.lessonId ∈ (buildMaps rows).lessons.map Prod.fst :=
  foldl_resolveStep_lesson_key_mem h _

/-- Every entry of the resolved lesson map carries the earliest parsed
date and the first non-empty content among the rows of its event. -/
theorem buildMaps_lessons_vals (rows : List ValidRow) :
    ∀ p ∈ (buildMaps rows).lessons,
      earliestDateFor rows p.1 = some p.2.lessonDate ∧
      firstContentFor rows p.1 = p.2.lessonContent := by
  induction rows using List.reverseRecOn with
  | nil =>
    intro p hp
    simp [buildMaps] at hp
  | append_singleton rows a ih =>
    have hM : buildMaps (rows ++ [a]) = resolveStep (buildMaps rows) a := by
      unfold buildMaps
      rw [List.foldl_append, List.foldl_cons, List.foldl_nil]
    intro p hp
    rw [hM, resolveStep_lessons] at hp
    split at hp
    · rename_i hany
      rcases List.mem_map.1 hp with ⟨q, hq, hpq⟩
      subst hpq
      by_cases hqk : q.1 = a.lessonId
      · rw [if_pos hqk]
        dsimp only
        obtain ⟨hd, hc⟩ := ih q hq
        constructor
        · rw [earliestDateFor_concat_eq rows a hqk.symm, hd,
            updateLessonEntry_lessonDate]
        · rw [firstContentFor_concat_eq rows a hqk.symm, hc,
            updateLessonEntry_lessonContent]
          by_cases h1 : q.2.lessonContent = ""
          · by_cases h2 : a.lessonContent = "" <;> simp [h1, h2]
          · simp [h1]
      · rw [if_neg hqk]
        obtain ⟨hd, hc⟩ := ih q hq
        constructor
        · rw [earliestDateFor_concat_ne rows a (fun h => hqk h.symm)]
          exact hd
        · rw [firstContentFor_concat_ne rows a (fun h => hqk h.symm)]
          exact hc
    · rename_i hany
      rcases List.mem_append.1 hp with hp' | hp'
      · obtain ⟨hd, hc⟩ := ih p hp'
        have hne : ¬ a.lessonId = p.1 := fun h =>
          hany (List.any_eq_true.2 ⟨p, hp', decide_eq_true h.symm⟩)
        constructor
        · rw [earliestDateFor_concat_ne rows a hne]
          exact hd
        · rw [firstContentFor_concat_ne rows a hne]
          exact hc
      · simp only [List.mem_singleton] at hp'
        subst hp'
        dsimp only
        have hnorow : ∀ r ∈ rows, r.lessonId ≠ a.lessonId := by
          intro r hr hrk
          refine hany (List.any_eq_true.2 ?_)
          have hkm := buildMaps_lesson_key_mem hr
          rcases List.mem_map.1 hkm with ⟨q, hq, hqk⟩
          exact ⟨q, hq, decide_eq_true (hqk.trans hrk)⟩
        constructor
        · rw [earliestDateFor_concat_eq rows a rfl,
            earliestDateFor_eq_none hnorow]
          rfl
        · rw [firstContentFor_concat_eq rows a rfl,
            firstContentFor_eq_empty hnorow, if_pos rfl]
          unfold initLessonEntry
          by_cases h2 : a.lessonContent = "" <;> simp [h2]

theorem mkLessonTotal_fields {instrId locId : String → Option Nat}
    {l : LessonEntry} (h1 : (instrId l.instructorEmail).isSome)
    (h2 : (locId l.locationName).isSome) :
    (mkLessonTotal instrId locId l).id = l.id ∧
    (mkLessonTotal instrId locId l).createdAt = l.lessonDate ∧
    (mkLessonTotal instrId locId l).lessonContent = strOrNull l.lessonContent := by
  unfold mkLessonTotal mkLessonUpsert
  obtain ⟨i, hi⟩ := Option.isSome_iff_exists.1 h1
  obtain ⟨v, hv⟩ := Option.isSome_iff_exists.1 h2
  rw [hi, hv]
  exact ⟨rfl, rfl, rfl⟩

/-- The event stage, seen from one lesson-map entry: with well-keyed,
deduplicated entries and total foreign-key lookups, every stored lesson
record with that id ends up with the entry's date as `createdAt` and the
entry's content (empty mapped to `null`), and the id is present. -/
theorem lessonStage_entry_spec (entries : List (String × LessonEntry))
    (instrId locId : String → Option Nat)
    (hkey : ∀ p ∈ entries, p.2.id = p.1)
    (hnd : (entries.map Prod.fst).Nodup)
    (hsome : ∀ p ∈ entries, (instrId p.2.instructorEmail).isSome ∧
      (locId p.2.locationName).isSome)
    {k : String} {e : LessonEntry} (hp : (k, e) ∈ entries) (σ : Store) :
    (∀ l ∈ (((entries.map Prod.snd).map (mkLessonTotal instrId locId)).foldl
        applyLessonUpsert σ).lessons, l.id = k →
        l.createdAt = e.lessonDate ∧ l.lessonContent = strOrNull e.lessonContent) ∧
    (∃ l ∈ (((entries.map Prod.snd).map (mkLessonTotal instrId locId)).foldl
        applyLessonUpsert σ).lessons, l.id = k) := by
  have hfe : entries.filter (fun q => q.1 = k) = [(k, e)] :=
    filter_eq_singleton_of_nodup Prod.fst hnd hp
  have hone : ∀ (es : List (String × LessonEntry)),
      (∀ p ∈ es, p.2.id = p.1) →
      (∀ p ∈ es, (instrId p.2.instructorEmail).isSome ∧
        (locId p.2.locationName).isSome) →
      ((es.map Prod.snd).map (mkLessonTotal instrId locId)).filter
          (fun x => x.id = k)
        = ((es.filter (fun q => q.1 = k)).map Prod.snd).map
            (mkLessonTotal instrId locId) := by
    intro es
    induction es with
    | nil => intro _ _; rfl
    | cons q qs ih =>
      intro hk hs
      rw [List.map_cons, List.map_cons]
      have hid : (mkLessonTotal instrId locId q.2).id = q.2.id :=
        (mkLessonTotal_fields (hs q (by simp)).1 (hs q (by simp)).2).1
      by_cases hq : q.1 = k
      · rw [List.filter_cons_of_pos (by simp [hid, hk q (by simp), hq]),
          List.filter_cons_of_pos (by simp [hq]), List.map_cons, List.map_cons,
          ih (fun p hp => hk p (by simp [hp])) (fun p hp => hs p (by simp [hp]))]
      · rw [List.filter_cons_of_neg (by simp [hid, hk q (by simp), hq]),
          List.filter_cons_of_neg (by simp [hq]),
          ih (fun p hp => hk p (by simp [hp])) (fun p hp => hs p (by simp [hp]))]
  have hlast : ((((entries.map Prod.snd).map (mkLessonTotal instrId locId)).filter
      (fun x => x.id = k))).getLast? = some (mkLessonTotal instrId locId e) := by
    rw [hone entries hkey hsome, hfe]
    rfl
  obtain ⟨hid, hdate, hcontent⟩ :=
    mkLessonTotal_fields (hsome (k, e) hp).1 (hsome (k, e) hp).2
  have hspec := lessonStage_spec
    ((entries.map Prod.snd).map (mkLessonTotal instrId locId)) σ k
    (mkLessonTotal instrId locId e) hlast
  constructor
  · intro l hl hlid
    have h := hspec.1 l hl hlid
    exact ⟨h.2.2.2.2.trans hdate, h.2.2.2.1.trans hcontent⟩
  · exact hspec.2

/-- The reconciled store's lesson table, seen from one resolved lesson-map
entry: every stored lesson with the entry's id carries the entry's date
and content, and the id is present. -/
theorem reconcile_lessons_spec (s : Store) (rows : List ValidRow) {k : String}
    {e : LessonEntry} (hp : (k, e) ∈ (buildMaps rows).lessons) :
    (∀ l ∈ (reconcile s rows).1.lessons, l.id = k →
        l.createdAt = e.lessonDate ∧ l.lessonContent = strOrNull e.lessonContent) ∧
    (∃ l ∈ (reconcile s rows).1.lessons, l.id = k) := by
  have hinv := buildMaps_inv rows
  have hkeys : (buildMaps rows).instructors.map Prod.fst =
      ((buildMaps rows).instructors.map Prod.snd).map (·.email) := by
    rw [List.map_map]
    exact List.map_congr_left (fun q hq => (hinv.instrKey q hq).symm)
  rw [reconcile_spec]
  dsimp only
  rw [foldl_proj_const upsertParticipant Store.lessons
      (fun s b => (upsertParticipant_frame s b).2.2.2)]
  refine lessonStage_entry_spec (buildMaps rows).lessons _ _ hinv.lessonKey
    hinv.lessonNodup (fun p hpp => ⟨?_, ?_⟩) hp _
  · have h1 := hinv.lessonInstr p hpp
    rw [hkeys] at h1
    apply instructorIdByEmail_isSome h1
    rcases List.mem_map.1 h1 with ⟨q, hq, hqe⟩
    exact hqe ▸ foldl_upsertInstructor_email_present _ _ q hq
  · have h2 := hinv.lessonLoc p hpp
    exact locationIdByName_isSome h2 (foldl_upsertLocation_present _ _ _ h2)

/-- C2 (event reconciliation): for every valid row, exactly one lesson-map
entry is resolved for its event id; the entry's timestamp is the earliest
parsed date among the rows sharing that event id, its content is the first
non-empty content in file order (never replaced later), and the store's
lesson record for that id carries exactly that timestamp (`createdAt`) and
that content (empty mapped to `null`). -/
theorem claim2_event_reconciliation (s : Store) (rows : List ValidRow)
    (row : ValidRow) (hrow : row ∈ rows) :
    ∃ e : LessonEntry,
      (buildMaps rows).lessons.filter (fun q => q.1 = row.lessonId) =
        [(row.lessonId, e)] ∧
      earliestDateFor rows row.lessonId = some e.lessonDate ∧
      firstContentFor rows row.lessonId = e.lessonContent ∧
      (∀ l ∈ (reconcile s rows).1.lessons, l.id = row.lessonId →
        l.createdAt = e.lessonDate ∧
        l.lessonContent = strOrNull e.lessonContent) ∧
      (∃ l ∈ (reconcile s rows).1.lessons, l.id = row.lessonId) := by
  have hinv := buildMaps_inv rows
  have hkmem := buildMaps_lesson_key_mem hrow
  rcases List.mem_map.1 hkmem with ⟨p, hp, hpk⟩
  obtain ⟨k0, e⟩ := p
  dsimp only at hpk
  subst hpk
  refine ⟨e, ?_, ?_, ?_, ?_, ?_⟩
  · exact filter_eq_singleton_of_nodup Prod.fst hinv.lessonNodup hp
  · exact (buildMaps_lessons_vals rows _ hp).1
  · exact (buildMaps_lessons_vals rows _ hp).2
  · exact (reconcile_lessons_spec s rows hp).1
  · exact (reconcile_lessons_spec s rows hp).2

/-- Witness for the C2 theorem at the spec's own scenario: two rows for
event `E1`, dates 2024-01-10 then 2024-01-05, content "Intro session" only
on the second row; the resolved timestamp is 2024-01-05 and the content is
"Intro session". -/
theorem claim2_witness :
    ((validateLoop demoEnv demoData).validRows.get ⟨0, by decide⟩) ∈
      (validateLoop demoEnv demoData).validRows ∧
    ((validateLoop demoEnv demoData).validRows.get ⟨0, by decide⟩).lessonId =
      "E1" ∧
    earliestDateFor (validateLoop demoEnv demoData).validRows "E1" =
      some (dateUTCms 2024 1 5) ∧
    firstContentFor (validateLoop demoEnv demoData).validRows "E1" =
      "Intro session" ∧
    (∃ e : LessonEntry,
      (buildMaps (validateLoop demoEnv demoData).validRows).lessons.filter
          (fun q => q.1 = ((validateLoop demoEnv demoData).validRows.get
            ⟨0, by decide⟩).lessonId) =
        [(((validateLoop demoEnv demoData).validRows.get
            ⟨0, by decide⟩).lessonId, e)] ∧
      earliestDateFor (validateLoop demoEnv demoData).validRows
          (((validateLoop demoEnv demoData).validRows.get
            ⟨0, by decide⟩).lessonId) = some e.lessonDate ∧
      firstContentFor (validateLoop demoEnv demoData).validRows
          (((validateLoop demoEnv demoData).validRows.get
            ⟨0, by decide⟩).lessonId) = e.lessonContent ∧
      (∀ l ∈ (reconcile emptyStore
          (validateLoop demoEnv demoData).validRows).1.lessons,
        l.id = ((validateLoop demoEnv demoData).validRows.get
            ⟨0, by decide⟩).lessonId →
          l.createdAt = e.lessonDate ∧
          l.lessonContent = strOrNull e.lessonContent) ∧
      (∃ l ∈ (reconcile emptyStore
          (validateLoop demoEnv demoData).validRows).1.lessons,
        l.id = ((validateLoop demoEnv demoData).validRows.get
            ⟨0, by decide⟩).lessonId)) :=
  ⟨List.get_mem _ _ _, by decide, by decide, by decide,
    claim2_event_reconciliation emptyStore _ _ (List.get_mem _ _ _)⟩

/-! ## Idempotence: a second identical run is the identity on the store -/

theorem store_eq_of_fields {s t : Store}
    (h1 : s.locations = t.locations) (h2 : s.users = t.users)
    (h3 : s.customers = t.customers) (h4 : s.lessons = t.lessons)
    (h5 : s.participants = t.participants) (h6 : s.nextId = t.nextId) :
    s = t := by
  cases s
  cases t
  dsimp only at h1 h2 h3 h4 h5 h6
  subst h1
  subst h2
  subst h3
  subst h4
  subst h5
  subst h6
  rfl

theorem partRec_eta {p : PartRec} {sym impr : Option String} {st : String}
    (h1 : p.customerSymptoms = sym) (h2 : p.customerImprovements = impr)
    (h3 : p.status = st) :
    ({ p with
        customerSymptoms := sym,
        customerImprovements := impr,
        status := st } : PartRec) = p := by
  cases p
  dsimp only at h1 h2 h3
  subst h1
  subst h2
  subst h3
  rfl

theorem lastRowFor_isSome_of_mem {rows : List ValidRow} {r : ValidRow}
    (h : r ∈ rows) :
    ∃ x, lastRowFor rows r.customerId r.lessonId = some x := by
  unfold lastRowFor
  have hne : rows.filter
      (fun q => q.customerId = r.customerId ∧ q.lessonId = r.lessonId) ≠ [] := by
    intro hnil
    have hmem : r ∈ rows.filter
        (fun q => q.customerId = r.customerId ∧ q.lessonId = r.lessonId) :=
      List.mem_filter.2 ⟨h, by simp⟩
    rw [hnil] at hmem
    cases hmem
  obtain ⟨x, hx⟩ := Option.isSome_iff_exists.1 (List.getLast?_isSome.2 hne)
  exact ⟨x, hx⟩

theorem filterLast_singleton_of_nodup {α} (f : α → String) {l : List α}
    (hnd : (l.map f).Nodup) {x : α} (hx : x ∈ l) :
    (l.filter (fun y => f y = f x)).getLast? = some x := by
  rw [filter_eq_singleton_of_nodup f hnd hx]
  rfl

theorem payloads_filter_last (entries : List (String × LessonEntry))
    (instrId locId : String → Option Nat)
    (hkey : ∀ p ∈ entries, p.2.id = p.1)
    (hnd : (entries.map Prod.fst).Nodup)
    (hsome : ∀ p ∈ entries, (instrId p.2.instructorEmail).isSome ∧
      (locId p.2.locationName).isSome)
    {k : String} {e : LessonEntry} (hp : (k, e) ∈ entries) :
    (((entries.map Prod.snd).map (mkLessonTotal instrId locId)).filter
      (fun x => x.id = k)).getLast? = some (mkLessonTotal instrId locId e) := by
  have hfe : entries.filter (fun q => q.1 = k) = [(k, e)] :=
    filter_eq_singleton_of_nodup Prod.fst hnd hp
  have hone : ∀ (es : List (String × LessonEntry)),
      (∀ p ∈ es, p.2.id = p.1) →
      (∀ p ∈ es, (instrId p.2.instructorEmail).isSome ∧
        (locId p.2.locationName).isSome) →
      ((es.map Prod.snd).map (mkLessonTotal instrId locId)).filter
          (fun x => x.id = k)
        = ((es.filter (fun q => q.1 = k)).map Prod.snd).map
            (mkLessonTotal instrId locId) := by
    intro es
    induction es with
    | nil => intro _ _; rfl
    | cons q qs ih =>
      intro hk hs
      rw [List.map_cons, List.map_cons]
      have hid : (mkLessonTotal instrId locId q.2).id = q.2.id :=
        (mkLessonTotal_fields (hs q (by simp)).1 (hs q (by simp)).2).1
      by_cases hq : q.1 = k
      · rw [List.filter_cons_of_pos (by simp [hid, hk q (by simp), hq]),
          List.filter_cons_of_pos (by simp [hq]), List.map_cons, List.map_cons,
          ih (fun p hp => hk p (by simp [hp])) (fun p hp => hs p (by simp [hp]))]
      · rw [List.filter_cons_of_neg (by simp [hid, hk q (by simp), hq]),
          List.filter_cons_of_neg (by simp [hq]),
          ih (fun p hp => hk p (by simp [hp])) (fun p hp => hs p (by simp [hp]))]
  rw [hone entries hkey hsome, hfe]
  rfl

/-- Only the Venue and Trainer stages of the reconciler touch the user
table. -/
theorem reconcile_users (s : Store) (rows : List ValidRow) :
    (reconcile s rows).1.users =
      (((buildMaps rows).instructors.map Prod.snd).foldl upsertInstructor
        ((buildMaps rows).locations.foldl upsertLocation s)).users := by
  rw [reconcile_spec]
  dsimp only
  rw [foldl_proj_const upsertParticipant Store.users
        (fun s b => (upsertParticipant_frame s b).2.1),
      foldl_proj_const applyLessonUpsert Store.users
        (fun s b => (applyLessonUpsert_frame s b).2.1),
      foldl_proj_const upsertCustomer Store.users
        (fun s b => (upsertCustomer_frame s b).2.1)]

/-- The reconciled store's lesson table is the event stage's lesson
table. -/
theorem reconcile_lessons_store (s : Store) (rows : List ValidRow) :
    (reconcile s rows).1.lessons =
      ((((buildMaps rows).lessons.map Prod.snd).map
          (mkLessonTotal
            (instructorIdByEmail
              ((((buildMaps rows).instructors.map Prod.snd).foldl upsertInstructor
                ((buildMaps rows).locations.foldl upsertLocation s)).users)
              (((buildMaps rows).instructors.map Prod.snd).map (·.email)))
            (locationIdByName
              (((buildMaps rows).locations.foldl upsertLocation s).locations)
              (buildMaps rows).locations))).foldl applyLessonUpsert
        (((buildMaps rows).customers.map Prod.snd).foldl upsertCustomer
          (((buildMaps rows).instructors.map Prod.snd).foldl upsertInstructor
            ((buildMaps rows).locations.foldl upsertLocation s)))).lessons := by
  rw [reconcile_spec]
  dsimp only
  rw [foldl_proj_const upsertParticipant Store.lessons
      (fun s b => (upsertParticipant_frame s b).2.2.2)]

/-- A second identical reconcile run leaves the store unchanged. -/
theorem reconcile_idem (s : Store) (rows : List ValidRow) :
    (reconcile (reconcile s rows).1 rows).1 = (reconcile s rows).1 := by
  have hinv := buildMaps_inv rows
  have hkeys : (buildMaps rows).instructors.map Prod.fst =
      ((buildMaps rows).instructors.map Prod.snd).map (·.email) := by
    rw [List.map_map]
    exact List.map_congr_left (fun q hq => (hinv.instrKey q hq).symm)
  have hem_nd : (((buildMaps rows).instructors.map Prod.snd).map
      (·.email)).Nodup := by
    rw [← hkeys]
    exact hinv.instrNodup
  have hcid_nd : (((buildMaps rows).customers.map Prod.snd).map
      (·.id)).Nodup := by
    rw [List.map_map]
    have h2 : (buildMaps rows).customers.map ((·.id) ∘ Prod.snd) =
        (buildMaps rows).customers.map Prod.fst :=
      List.map_congr_left (fun q hq => hinv.custKey q hq)
    rw [h2]
    exact hinv.custNodup
  have hsome : ∀ p ∈ (buildMaps rows).lessons,
      ((instructorIdByEmail
        ((((buildMaps rows).instructors.map Prod.snd).foldl upsertInstructor
          ((buildMaps rows).locations.foldl upsertLocation s)).users)
        (((buildMaps rows).instructors.map Prod.snd).map (·.email)))
        p.2.instructorEmail).isSome ∧
      ((locationIdByName
        (((buildMaps rows).locations.foldl upsertLocation s).locations)
        (buildMaps rows).locations) p.2.locationName).isSome := by
    intro p hpp
    constructor
    · have h1 := hinv.lessonInstr p hpp
      rw [hkeys] at h1
      apply instructorIdByEmail_isSome h1
      rcases List.mem_map.1 h1 with ⟨q, hq, hqe⟩
      exact hqe ▸ foldl_upsertInstructor_email_present _ _ q hq
    · have h2 := hinv.lessonLoc p hpp
      exact locationIdByName_isSome h2 (foldl_upsertLocation_present _ _ _ h2)
  have hL2 : (buildMaps rows).locations.foldl upsertLocation
      (reconcile s rows).1 = (reconcile s rows).1 := by
    refine foldl_upsertLocation_fix (fun n hn => ?_)
    rw [reconcile_locations]
    exact foldl_upsertLocation_present _ s n hn
  have hI2 : ((buildMaps rows).instructors.map Prod.snd).foldl upsertInstructor
      (reconcile s rows).1 = (reconcile s rows).1 := by
    refine foldl_upsertInstructor_fix (fun a ha => ⟨?_, ?_⟩)
    · rw [reconcile_users]
      exact foldl_upsertInstructor_email_present _ _ a ha
    · intro u hu hue
      rw [reconcile_users] at hu
      exact (instrStage_spec _ _ a.email a
        (filterLast_singleton_of_nodup (fun x : InstructorEntry => x.email)
          hem_nd ha)).1 u hu hue
  have hC2 : ((buildMaps rows).customers.map Prod.snd).foldl upsertCustomer
      (reconcile s rows).1 = (reconcile s rows).1 := by
    refine foldl_upsertCustomer_fix (fun a ha => ⟨?_, ?_⟩)
    · rw [reconcile_customers]
      exact (custStage_spec _ s a.id a
        (filterLast_singleton_of_nodup (fun x : CustomerEntry => x.id)
          hcid_nd ha)).2
    · intro c hc hcid
      rw [reconcile_customers] at hc
      exact (custStage_spec _ s a.id a
        (filterLast_singleton_of_nodup (fun x : CustomerEntry => x.id)
          hcid_nd ha)).1 c hc hcid
  have hE2 : (((buildMaps rows).lessons.map Prod.snd).map
      (mkLessonTotal
        (instructorIdByEmail
          ((((buildMaps rows).instructors.map Prod.snd).foldl upsertInstructor
            ((buildMaps rows).locations.foldl upsertLocation s)).users)
          (((buildMaps rows).instructors.map Prod.snd).map (·.email)))
        (locationIdByName
          (((buildMaps rows).locations.foldl upsertLocation s).locations)
          (buildMaps rows).locations))).foldl applyLessonUpsert
      (reconcile s rows).1 = (reconcile s rows).1 := by
    refine foldl_applyLessonUpsert_fix (fun a ha => ?_)
    rcases List.mem_map.1 ha with ⟨le, hle, hale⟩
    rcases List.mem_map.1 hle with ⟨p, hp, hple⟩
    subst hple
    subst hale
    have hfields := mkLessonTotal_fields (hsome p hp).1 (hsome p hp).2
    have hlast := payloads_filter_last (buildMaps rows).lessons _ _
      hinv.lessonKey hinv.lessonNodup hsome hp
    have hspec := lessonStage_spec _
      (((buildMaps rows).customers.map Prod.snd).foldl upsertCustomer
        (((buildMaps rows).instructors.map Prod.snd).foldl upsertInstructor
          ((buildMaps rows).locations.foldl upsertLocation s)))
      p.1 _ hlast
    constructor
    · rw [reconcile_lessons_store]
      obtain ⟨l, hl, hlid⟩ := hspec.2
      exact ⟨l, hl, hlid.trans (hfields.1.trans (hinv.lessonKey p hp)).symm⟩
    · intro l hl hlid
      rw [reconcile_lessons_store] at hl
      exact hspec.1 l hl (hlid.trans (hfields.1.trans (hinv.lessonKey p hp)))
  have hS1 : (reconcile s rows).1 = rows.foldl upsertParticipant
      ((((buildMaps rows).lessons.map Prod.snd).map
        (mkLessonTotal
          (instructorIdByEmail
            ((((buildMaps rows).instructors.map Prod.snd).foldl upsertInstructor
              ((buildMaps rows).locations.foldl upsertLocation s)).users)
            (((buildMaps rows).instructors.map Prod.snd).map (·.email)))
          (locationIdByName
            (((buildMaps rows).locations.foldl upsertLocation s).locations)
            (buildMaps rows).locations))).foldl applyLessonUpsert
        (((buildMaps rows).customers.map Prod.snd).foldl upsertCustomer
          (((buildMaps rows).instructors.map Prod.snd).foldl upsertInstructor
            ((buildMaps rows).locations.foldl upsertLocation s)))) := by
    rw [reconcile_spec]
  have hPresent : ∀ r ∈ rows, ∃ p ∈ (reconcile s rows).1.participants,
      p.customerId = r.customerId ∧ p.lessonId = r.lessonId := by
    intro r hr
    obtain ⟨x, hx⟩ := lastRowFor_isSome_of_mem hr
    rw [hS1]
    exact (partStage_spec rows _ r.customerId r.lessonId x hx).2
  have hpart := foldl_upsertParticipant_all_present rows (reconcile s rows).1
    hPresent
  have hP2 : rows.foldl upsertParticipant (reconcile s rows).1 =
      (reconcile s rows).1 := by
    refine store_eq_of_fields
      (foldl_proj_const upsertParticipant Store.locations
        (fun s b => (upsertParticipant_frame s b).1) rows _)
      (foldl_proj_const upsertParticipant Store.users
        (fun s b => (upsertParticipant_frame s b).2.1) rows _)
      (foldl_proj_const upsertParticipant Store.customers
        (fun s b => (upsertParticipant_frame s b).2.2.1) rows _)
      (foldl_proj_const upsertParticipant Store.lessons
        (fun s b => (upsertParticipant_frame s b).2.2.2) rows _)
      ?_ hpart.2
    rw [hpart.1]
    refine map_eq_self_of (fun p hp => ?_)
    cases hlr : lastRowFor rows p.customerId p.lessonId with
    | none => rfl
    | some r =>
      rw [hS1] at hp
      have hv := (partStage_spec rows _ p.customerId p.lessonId r hlr).1 p hp
        rfl rfl
      exact partRec_eta hv.2.1 hv.2.2 hv.1
  rw [reconcile_spec ((reconcile s rows).1) rows]
  dsimp only
  rw [hL2, hI2, hC2, reconcile_users, reconcile_locations, hE2]
  exact hP2

theorem runImport_store (env : JsEnv) (s : Store) (data : List RawRow)
    (hne : data ≠ []) (hhdr : requiredMissing data = []) :
    (runImport env s data).store =
      (if (validateLoop env data).validRows.length > 0 then
        (reconcile s (validateLoop env data).validRows).1 else s) := by
  rw [runImport_eq env s data hne hhdr]
  dsimp only
  by_cases hval : (validateLoop env data).validRows.length > 0
  · rw [if_pos hval, if_pos hval]
    split <;> rfl
  · rw [if_neg hval, if_neg hval]
    split <;> rfl

theorem runImport_resp_indep (env : JsEnv) (s t : Store) (data : List RawRow)
    (hne : data ≠ []) (hhdr : requiredMissing data = []) :
    (runImport env s data).resp = (runImport env t data).resp := by
  rw [runImport_eq env s data hne hhdr, runImport_eq env t data hne hhdr]
  dsimp only
  by_cases herr : (validateLoop env data).errorCount > 0
  · rw [if_pos herr, if_pos herr]
  · rw [if_neg herr, if_neg herr]

/-- C3 (idempotence): running the identical import a second time against
the store produced by the first run leaves the store unchanged — the same
Venue/Trainer/Person/Event tables (so no duplicate rows for any of the
four entity types; in particular the synthesized trainer handle is a
deterministic function of the trainer name, so the existing trainer
account is upserted rather than duplicated) and the same Attendance
records, the second run's note values coinciding with the first's — and
the second run's response (status, message, counts, errors) equals the
first run's. -/
theorem claim3_idempotence (env : JsEnv) (s : Store) (data : List RawRow) :
    (runImport env (runImport env s data).store data).store =
      (runImport env s data).store ∧
    (runImport env (runImport env s data).store data).resp =
      (runImport env s data).resp := by
  cases data with
  | nil => exact ⟨rfl, rfl⟩
  | cons d ds =>
    by_cases hhdr : requiredMissing (d :: ds) = []
    · refine ⟨?_, runImport_resp_indep env _ s (d :: ds) (by simp) hhdr⟩
      rw [runImport_store env (runImport env s (d :: ds)).store (d :: ds)
          (by simp) hhdr,
        runImport_store env s (d :: ds) (by simp) hhdr]
      by_cases hval : (validateLoop env (d :: ds)).validRows.length > 0
      · rw [if_pos hval, if_pos hval]
        exact reconcile_idem s (validateLoop env (d :: ds)).validRows
      · rw [if_neg hval, if_neg hval]
    · rw [runImport_headerFail env s (d :: ds) (by simp) hhdr]
      rw [runImport_headerFail env s (d :: ds) (by simp) hhdr]
      exact ⟨rfl, rfl⟩
